import Mathlib

/-!
Verification of the Sudoku solver in `sudoku_solver.py` (class `Sudoku`).

The embedding models the board as two parallel 81-entry lists indexed in
row-major order (square `A1` is index 0, `A2` is index 1, …, `I9` is index 80):
`values` holds each square's domain (the Python string `self.values[s]` as a
list of characters, order preserved) and `grid` holds each square's grid entry
(the Python string `self.grid[s]`).  Python string operations that the code
relies on (`in` as substring test, `str.replace(v, '')`) are modelled
character-exactly, including the corner cases `'' in s == True` and
`s.replace('', '') == s`.  The recursive propagation closure and the recursive
search are modelled with an explicit fuel parameter for call depth; running out
of fuel is a distinct outcome, never conflated with an answer.  Python `dict`
iteration follows insertion order, which for both `self.values` and `self.grid`
is row-major square order throughout, so loops over `.items()` are modelled as
loops over indices 0..80.  Python `set` iteration order is unspecified; the
peer set is modelled as a list in a fixed canonical order (first occurrence in
the joined unit lists).
-/

namespace SudokuVerify

/-- `self.digits = '123456789'`. -/
def digitsL : List Char := ['1', '2', '3', '4', '5', '6', '7', '8', '9']

/-- Column unit `cross_product(self.rows, c)`: all squares of column `c`. -/
def colUnit (c : Nat) : List Nat := (List.range 9).map (fun r => r * 9 + c)

/-- Row unit `cross_product(r, self.cols)`: all squares of row `r`. -/
def rowUnit (r : Nat) : List Nat := (List.range 9).map (fun c => r * 9 + c)

/-- Box unit `cross_product(rs, cs)` for the 3x3 band `br` and stack `bc`. -/
def boxUnit (br bc : Nat) : List Nat :=
  ((List.range 3).map (fun i => (List.range 3).map (fun j => (3 * br + i) * 9 + (3 * bc + j)))).flatten

/-- `unitlist` in the constructor's order: the nine column units (the first
comprehension iterates `for c in self.cols`), then the nine row units, then
the nine box units. -/
def unitlist : List (List Nat) :=
  ((List.range 9).map colUnit) ++ ((List.range 9).map rowUnit) ++
    (((List.range 3).map (fun br => (List.range 3).map (fun bc => boxUnit br bc))).flatten)

/-- `self.units[s] = [u for u in unitlist if s in u]`. -/
def units (s : Nat) : List (List Nat) := unitlist.filter (fun u => decide (s ∈ u))

/-- `self.peers[s] = set(sum(self.units[s], [])) - set([s])`, as a list in a
fixed canonical order standing in for the unordered Python set. -/
def peersList (s : Nat) : List Nat := ((units s).flatten.dedup).filter (fun p => decide (p ≠ s))

/-- The board state: `self.values` and `self.grid`, both row-major. -/
structure SState where
  values : List (List Char)
  grid : List (List Char)
deriving DecidableEq, Repr

/-- Current domain of square `s` (`self.values[s]`). -/
def dom (st : SState) (s : Nat) : List Char := st.values.getD s []

/-- Current grid entry of square `s` (`self.grid[s]`). -/
def gridOf (st : SState) (s : Nat) : List Char := st.grid.getD s []

/-- `self.values[s] = l`. -/
def setDom (st : SState) (s : Nat) (l : List Char) : SState :=
  { st with values := st.values.set s l }

/-- `self.grid[s] = l`. -/
def setGrid (st : SState) (s : Nat) (l : List Char) : SState :=
  { st with grid := st.grid.set s l }

/-- Whether `v` starts the list `l` (character-wise). -/
def leadsWith : List Char → List Char → Bool
  | [], _ => true
  | _ :: _, [] => false
  | a :: as, b :: bs => a == b && leadsWith as bs

/-- Python substring membership `v in s`; in particular `'' in s` is `True`. -/
def pyIn (v s : List Char) : Bool := s.tails.any (fun t => leadsWith v t)

/-- Worker for `pyReplace`, with fuel bounded by the length of the scanned list. -/
def replGo (v : List Char) : Nat → List Char → List Char
  | _, [] => []
  | 0, l => l
  | f + 1, c :: rest =>
    if leadsWith v (c :: rest) then replGo v f (rest.drop (v.length - 1))
    else c :: replGo v f rest

/-- Python `s.replace(v, '')`: removes non-overlapping occurrences of `v`
left to right; `s.replace('', '')` is `s`. -/
def pyReplace (s v : List Char) : List Char :=
  match v with
  | [] => s
  | _ :: _ => replGo v s.length s

/-- One pass of the peer loop inside `propagate_constraints`: for each peer,
call the elimination step with the *re-read* current domain of `sq`
(`propagate_constraints(peer, self.values[_square])`). -/
def elimPeers (f : SState → Nat → List Char → Option SState) (sq : Nat) :
    List Nat → SState → Option SState
  | [], st => some st
  | p :: ps, st =>
    match f st p (dom st sq) with
    | none => none
    | some st2 => elimPeers f sq ps st2

/-- The state after `self.values[_square] = self.values[_square].replace(_value, '')`. -/
def afterRemoval (st : SState) (sq : Nat) (v : List Char) : SState :=
  setDom st sq (pyReplace (dom st sq) v)

/-- `propagate_constraints(_square, _value)` with fuel for the recursion depth:
if `_value not in values[_square]`, return; otherwise remove it, and if the
domain became a singleton, write it to `grid[_square]` and cascade to peers. -/
def elim : Nat → SState → Nat → List Char → Option SState
  | 0, _, _, _ => none
  | fuel + 1, st, sq, v =>
    if pyIn v (dom st sq) = false then some st
    else if (dom (afterRemoval st sq v) sq).length = 1 then
      elimPeers (elim fuel) sq (peersList sq)
        (setGrid (afterRemoval st sq v) sq (dom (afterRemoval st sq v) sq))
    else some (afterRemoval st sq v)

/-- The inner loop `for other_value in remaining_values:` of `propagate`,
over a snapshot list of single characters. -/
def elimVals (f : SState → Nat → List Char → Option SState) (sq : Nat) :
    List Char → SState → Option SState
  | [], st => some st
  | c :: cs, st =>
    match f st sq [c] with
    | none => none
    | some st2 => elimVals f sq cs st2

/-- One iteration of `propagate`'s outer loop at square `sq`: the grid entry is
read live; `if value in self.digits` is the Python substring test. -/
def propStep (fuel : Nat) (st : SState) (sq : Nat) : Option SState :=
  if pyIn (gridOf st sq) digitsL then
    elimVals (elim fuel) sq (pyReplace (dom st sq) (gridOf st sq)) st
  else some st

/-- The outer loop `for square, value in self.grid.items():` of `propagate`. -/
def propSquares (fuel : Nat) : List Nat → SState → Option SState
  | [], st => some st
  | sq :: sqs, st =>
    match propStep fuel st sq with
    | none => none
    | some st2 => propSquares fuel sqs st2

/-- `Sudoku.propagate`, with fuel for the cascade depth. -/
def propagateO (fuel : Nat) (st : SState) : Option SState :=
  propSquares fuel (List.range 81) st

/-- Whether a character survives the filter in `grid_values`
(`c in self.digits or c in '0.'`). -/
def recognized (c : Char) : Bool := digitsL.contains c || c == '0' || c == '.'

/-- `Sudoku.grid_values`: filter the input, `assert len(chars) == 81`
(modelled as `none` on failure), and pair the characters with the squares in
row-major order (the pairing is by list position). -/
def grid_values (g : List Char) : Option (List Char) :=
  let chars := g.filter recognized
  if chars.length = 81 then some chars else none

/-- The board state right after `load_file`: `self.values` maps every square
to the full digit string, `self.grid` holds the parsed characters. -/
def initState (b : List Char) : SState :=
  { values := List.replicate 81 digitsL, grid := b.map (fun c => [c]) }

/-- Result of `Sudoku.search`: `solved` models a truthy return (`True` or the
non-empty `self.values` dict), `failed` models `return False`, `crash` models
the uncaught `IndexError` from `blank_squares[0]`, and `nofuel` marks fuel
exhaustion of the model (never an answer). -/
inductive SResult where
  | solved (st : SState)
  | failed (st : SState)
  | crash (st : SState)
  | nofuel (st : SState)
deriving DecidableEq, Repr

/-- `all(len(v) == 1 for s, v in self.values.items())`. -/
def allSingleton (st : SState) : Bool := st.values.all (fun v => v.length == 1)

/-- Domain size of square `s`. -/
def keyLen (st : SState) (s : Nat) : Nat := (dom st s).length

/-- The keys of `blank_squares`, in dict (row-major) order: squares whose
domain has more than one value. -/
def blanks (st : SState) : List Nat :=
  (List.range 81).filter (fun s => decide (1 < (dom st s).length))

/-- The sort key comparison used by `sorted(blank_squares.items(), key=lambda x: x[1])`. -/
def mrvOrder (st : SState) (a b : Nat) : Prop := keyLen st a ≤ keyLen st b

instance (st : SState) : DecidableRel (mrvOrder st) := fun x y => Nat.decLe _ _

/-- `get_square_with_minimum_remaining_possible_values`, modelled totally:
Python's stable `sorted` is the insertion sort, and `blank_squares[0][0]` is
`head?` (`none` exactly when the indexing raises `IndexError`). -/
def mrv (st : SState) : Option Nat :=
  (List.insertionSort (mrvOrder st) (blanks st)).head?

/-- The first element of a list attaining the minimal domain size: the
reference value for `head?` of the stable sort used by `mrv`. -/
def firstMinIdx (st : SState) : List Nat → Option Nat
  | [] => none
  | a :: l =>
    match firstMinIdx st l with
    | none => some a
    | some m => if keyLen st a ≤ keyLen st m then some a else some m

/-- `is_allowed_in_square(square, value)`: no peer's grid entry contains the
candidate character. -/
def isAllowed (st : SState) (sq : Nat) (d : Char) : Bool :=
  (peersList sq).all (fun p => p == sq || !(pyIn [d] (gridOf st p)))

/-- The tentative assignment in `search`: `self.grid[sq] = d; self.values[sq] = d`. -/
def commit (st : SState) (sq : Nat) (d : Char) : SState :=
  setDom (setGrid st sq [d]) sq [d]

/-- The undo in `search`: `self.grid[sq] = ''; self.values[sq] = current_domain`. -/
def restore (st : SState) (sq : Nat) (saved : List Char) : SState :=
  setDom (setGrid st sq []) sq saved

/-- The candidate loop `for domain_value in self.values[next_blank_square]:`
of `search`, iterating a snapshot of the chosen square's domain. -/
def tryCands (f : SState → SResult) (sq : Nat) (saved : List Char) :
    List Char → SState → SResult
  | [], st => .failed st
  | d :: ds, st =>
    if isAllowed st sq d then
      match f (commit st sq d) with
      | .solved st2 => .solved st2
      | .failed st2 => tryCands f sq saved ds (restore st2 sq saved)
      | r => r
    else tryCands f sq saved ds st

/-- `Sudoku.search`, with fuel for the recursion depth. -/
def search : Nat → SState → SResult
  | 0, st => .nofuel st
  | fuel + 1, st =>
    if allSingleton st then .solved st
    else
      match mrv st with
      | none => .crash st
      | some sq => tryCands (search fuel) sq (dom st sq) (dom st sq) st

/-- The first action `search` takes past its solved check and MRV selection:
whether some candidate of the chosen square passes `is_allowed_in_square`,
i.e. whether the call commits a tentative assignment (enters backtracking). -/
def firstStepCommits (st : SState) : Bool :=
  match mrv st with
  | none => false
  | some sq => (dom st sq).any (fun d => isAllowed st sq d)

/-- Modelled from the spec: "`units(cell)`: ordered sequence of the 3 units
containing `cell` (its row-unit, column-unit, box-unit)" — the claimed order,
for comparison with the code's `units`. -/
def unitsRowColBox (s : Nat) : List (List Nat) :=
  [rowUnit (s / 9), colUnit (s % 9), boxUnit (s / 27) ((s % 9) / 3)]

/-! ### Invariants used by the correctness arguments -/

/-- Well-formed shape: both state lists have one entry per square. -/
def WF (st : SState) : Prop := st.values.length = 81 ∧ st.grid.length = 81

/-- Pointwise domain shrinking between two states. -/
def MonoR (st st2 : SState) : Prop := ∀ t, (dom st2 t).Sublist (dom st t)

/-- Both state lists keep their lengths between two states. -/
def LenEq (st st2 : SState) : Prop :=
  st2.values.length = st.values.length ∧ st2.grid.length = st.grid.length

/-- During propagation every grid entry is a single character (parsed
characters are single characters, and the only write is a fired singleton). -/
def GridLen1 (st : SState) : Prop := ∀ s, s < 81 → (gridOf st s).length = 1

/-- Every domain is drawn from the digit characters. -/
def Dinv (st : SState) : Prop := ∀ s, dom st s ⊆ digitsL

/-- A square whose domain is a singleton has that singleton written to the
grid (`self.grid[_square] = self.values[_square]` fires on every transition
to a one-element domain). -/
def Jinv (st : SState) : Prop := ∀ s, (dom st s).length = 1 → gridOf st s = dom st s

/-- No square's singleton domain value survives in any peer's domain. -/
def NoConflict (st : SState) : Prop :=
  ∀ s c, dom st s = [c] → ∀ p ∈ peersList s, c ∉ dom st p

/-- Weaker form used through the search: no two peers hold the same
singleton domain. -/
def Vinv (st : SState) : Prop :=
  ∀ s c, dom st s = [c] → ∀ p ∈ peersList s, dom st p ≠ [c]

/-- Any *newly created* singleton (relative to a start state) has been
cleared from all of its peers' domains. -/
def Clean2 (st st2 : SState) : Prop :=
  ∀ t c, dom st2 t = [c] → dom st t ≠ [c] → ∀ p ∈ peersList t, c ∉ dom st2 p

/-- Square `s` would be a no-op in `propagate`'s outer loop: if its grid entry
is a digit character then its domain is already confined to that character. -/
def NoOpAt (st : SState) (s : Nat) : Prop :=
  ∀ c, gridOf st s = [c] → c ∈ digitsL → dom st s ⊆ [c]

/-- Grid evolution during propagation: a square's grid entry is unchanged, or
it was overwritten by a fired singleton, which makes the square a no-op and
keeps the entry a digit character. -/
def GridEvolve (st st2 : SState) : Prop :=
  ∀ t, gridOf st2 t = gridOf st t ∨ (NoOpAt st2 t ∧ ∃ x, gridOf st2 t = [x] ∧ x ∈ digitsL)

/-- Grid changes made by a failed search: an entry is unchanged or it was
cleared to `''` by the undo, in which case that square's domain was restored
to a branching domain (more than one value). -/
def GridRestore (st st2 : SState) : Prop :=
  ∀ s, gridOf st2 s = gridOf st s ∨ (gridOf st2 s = [] ∧ 1 < (dom st2 s).length)

/-- The bundle of invariants maintained throughout propagation. -/
def PB (st : SState) : Prop := WF st ∧ GridLen1 st ∧ Dinv st ∧ Jinv st

/-- The binary relation carried along propagation folds: starting from a
`PB` state, the bundle is preserved, `NoOpAt` squares stay no-ops, and grid
entries evolve only by singleton fires. -/
def PBNE (st st2 : SState) : Prop :=
  PB st → PB st2 ∧ (∀ t, NoOpAt st t → NoOpAt st2 t) ∧ GridEvolve st st2

/-- The binary relation used to transport `Clean2` along folds. -/
def CR (st st2 : SState) : Prop := WF st → WF st2 ∧ Clean2 st st2 ∧ MonoR st st2

/-! ### Concrete boards and states used by counterexamples and witnesses -/

/-- A complete valid grid (rows are shifts of `123456789` by 0,3,6,1,4,7,2,5,8). -/
def solGrid : List Char :=
  ("123456789" ++ "456789123" ++ "789123456" ++
   "234567891" ++ "567891234" ++ "891234567" ++
   "345678912" ++ "678912345" ++ "912345678").toList

/-- The same complete grid except square 80 (`I9`) carries the conflicting
clue `'1'` (the rest of the grid forces `'8'` there). -/
def cexC1input : List Char :=
  ("123456789" ++ "456789123" ++ "789123456" ++
   "234567891" ++ "567891234" ++ "891234567" ++
   "345678912" ++ "678912345" ++ "912345671").toList

/-- The propagated state of both full-grid inputs: every domain and every
grid entry is the corresponding solution singleton. -/
def expectedSt : SState :=
  { values := solGrid.map (fun c => [c]), grid := solGrid.map (fun c => [c]) }

/-- A puzzle whose first two squares carry the clashing clues `1`, `1`. -/
def cexC2input : List Char := '1' :: '1' :: List.replicate 79 '.'

/-- A board mid-search: squares 0 and 1 are blank with domains `12` and `13`,
every other square holds its `solGrid` digit. -/
def stC5 : SState :=
  { values := ((solGrid.map (fun c => [c])).set 0 ['1', '2']).set 1 ['1', '3'],
    grid := ((solGrid.map (fun c => [c])).set 0 ['.']).set 1 ['.'] }

/-- What `search` leaves behind after failing on `stC5`: square 0's grid
entry has been cleared to `''` instead of being restored to `'.'`. -/
def stC5x : SState :=
  { values := stC5.values, grid := stC5.grid.set 0 [] }

/-- A state with eighty singleton domains and one empty domain. -/
def stC2w : SState :=
  { values := (List.replicate 81 ['1']).set 3 [], grid := List.replicate 81 ['1'] }

/-- A state whose only branching squares are 5 (domain size 3) and 7 (size 2). -/
def stC4w : SState :=
  { values := ((List.replicate 81 ['1']).set 5 ['1', '2', '3']).set 7 ['1', '2'],
    grid := List.replicate 81 ['.'] }

/-- A state that is not all-singleton (square 9 has an empty domain) yet has
no square with domain size above one. -/
def stC10x : SState :=
  { values := (List.replicate 81 ['1']).set 9 [], grid := List.replicate 81 ['1'] }

/-- The all-blank puzzle. -/
def blankInput : List Char := List.replicate 81 '.'

/-! ### Basic list access lemmas -/

theorem getD_set_self {α : Type} (l : List α) (i : Nat) (x d : α) (h : i < l.length) :
    (l.set i x).getD i d = x := by
  induction l generalizing i with
  | nil => simp at h
  | cons a as ih =>
    cases i with
    | zero => rfl
    | succ j => simpa using ih j (by simpa using h)

theorem getD_set_ne {α : Type} (l : List α) (i j : Nat) (x d : α) (h : j ≠ i) :
    (l.set i x).getD j d = l.getD j d := by
  induction l generalizing i j with
  | nil => simp
  | cons a as ih =>
    cases i with
    | zero => cases j with
      | zero => exact absurd rfl h
      | succ k => rfl
    | succ i2 => cases j with
      | zero => rfl
      | succ k => simpa using ih i2 k (by omega)

theorem set_getD_self {α : Type} (l : List α) (i : Nat) (d : α) :
    l.set i (l.getD i d) = l := by
  induction l generalizing i with
  | nil => rfl
  | cons a as ih =>
    cases i with
    | zero => rfl
    | succ j => simpa using ih j

/-! ### State access lemmas -/

theorem dom_setDom_self (st : SState) (s : Nat) (l : List Char) (h : s < st.values.length) :
    dom (setDom st s l) s = l := getD_set_self _ _ _ _ h

theorem dom_setDom_ne (st : SState) (s t : Nat) (l : List Char) (h : t ≠ s) :
    dom (setDom st s l) t = dom st t := getD_set_ne _ _ _ _ _ h

theorem gridOf_setDom (st : SState) (s : Nat) (l : List Char) (t : Nat) :
    gridOf (setDom st s l) t = gridOf st t := rfl

theorem dom_setGrid (st : SState) (s : Nat) (l : List Char) (t : Nat) :
    dom (setGrid st s l) t = dom st t := rfl

theorem gridOf_setGrid_self (st : SState) (s : Nat) (l : List Char) (h : s < st.grid.length) :
    gridOf (setGrid st s l) s = l := getD_set_self _ _ _ _ h

theorem gridOf_setGrid_ne (st : SState) (s t : Nat) (l : List Char) (h : t ≠ s) :
    gridOf (setGrid st s l) t = gridOf st t := getD_set_ne _ _ _ _ _ h

theorem setDom_dom_self (st : SState) (s : Nat) : setDom st s (dom st s) = st := by
  show ({ st with values := st.values.set s (st.values.getD s []) } : SState) = st
  rw [set_getD_self]

theorem length_values_setDom (st : SState) (s : Nat) (l : List Char) :
    (setDom st s l).values.length = st.values.length := List.length_set ..

theorem length_grid_setGrid (st : SState) (s : Nat) (l : List Char) :
    (setGrid st s l).grid.length = st.grid.length := List.length_set ..

theorem WF_setDom (st : SState) (s : Nat) (l : List Char) (h : WF st) : WF (setDom st s l) := by
  obtain ⟨h1, h2⟩ := h
  exact ⟨by simpa [setDom] using h1, h2⟩

theorem WF_setGrid (st : SState) (s : Nat) (l : List Char) (h : WF st) : WF (setGrid st s l) := by
  obtain ⟨h1, h2⟩ := h
  exact ⟨h1, by simpa [setGrid] using h2⟩

/-! ### Python string operation lemmas -/

theorem leadsWith_nil (l : List Char) : leadsWith [] l = true := rfl

theorem pyIn_nil_left (s : List Char) : pyIn [] s = true := by
  cases s <;> simp [pyIn, List.tails, leadsWith]

theorem pyIn_singleton (c : Char) (s : List Char) : pyIn [c] s = true ↔ c ∈ s := by
  induction s with
  | nil => simp [pyIn, List.tails, leadsWith]
  | cons x xs ih =>
    rw [pyIn] at ih ⊢
    simp only [List.tails_cons, List.any_cons, Bool.or_eq_true, leadsWith, leadsWith_nil,
      Bool.and_true, beq_iff_eq, List.mem_cons, ih]

theorem pyReplace_nil (s : List Char) : pyReplace s [] = s := rfl

theorem replGo_singleton (c : Char) :
    ∀ (f : Nat) (s : List Char), s.length ≤ f →
      replGo [c] f s = s.filter (fun x => x != c) := by
  intro f
  induction f with
  | zero =>
    intro s hs
    cases s with
    | nil => rfl
    | cons x xs => simp at hs
  | succ f ih =>
    intro s hs
    cases s with
    | nil => rfl
    | cons x xs =>
      have hx : leadsWith [c] (x :: xs) = (c == x) := by simp [leadsWith, leadsWith_nil]
      simp only [replGo, hx]
      by_cases hcx : c = x
      · subst hcx
        rw [if_pos (by simp)]
        rw [List.filter_cons_of_neg (by simp)]
        simpa using ih xs (by simpa using hs)
      · rw [if_neg (by simp [hcx])]
        rw [List.filter_cons_of_pos (by simp [Ne.symm hcx])]
        rw [ih xs (by simpa using hs)]

theorem pyReplace_singleton (s : List Char) (c : Char) :
    pyReplace s [c] = s.filter (fun x => x != c) :=
  replGo_singleton c s.length s le_rfl

theorem replGo_sublist (v : List Char) :
    ∀ (f : Nat) (s : List Char), (replGo v f s).Sublist s := by
  intro f
  induction f with
  | zero =>
    intro s
    cases s with
    | nil => exact List.Sublist.refl _
    | cons a as => exact List.Sublist.refl _
  | succ f ih =>
    intro s
    cases s with
    | nil => exact List.Sublist.refl _
    | cons x xs =>
      simp only [replGo]
      by_cases h : leadsWith v (x :: xs) = true
      · rw [if_pos h]
        exact ((ih _).trans (List.drop_sublist _ _)).trans (List.sublist_cons_self x xs)
      · rw [if_neg h]
        exact (ih xs).cons₂ x

theorem pyReplace_sublist (s v : List Char) : (pyReplace s v).Sublist s := by
  cases v with
  | nil => exact (pyReplace_nil s) ▸ List.Sublist.refl s
  | cons a as => exact replGo_sublist _ _ _

theorem filter_ne_eq_nil_iff (l : List Char) (c : Char) :
    l.filter (fun x => x != c) = [] ↔ l ⊆ [c] := by
  constructor
  · intro h x hx
    by_cases hxc : x = c
    · simp [hxc]
    · have : x ∈ l.filter (fun y => y != c) := List.mem_filter.mpr ⟨hx, by simp [hxc]⟩
      simp [h] at this
  · intro h
    apply List.filter_eq_nil_iff.mpr
    intro x hx
    have := h hx
    simp at this
    simp [this]

/-! ### Topology lemmas -/

theorem mem_unitlist_lt : ∀ u ∈ unitlist, ∀ x ∈ u, x < 81 := by decide

theorem unitlist_length : ∀ u ∈ unitlist, u.length = 9 := by decide

theorem unitlist_nodup : ∀ u ∈ unitlist, u.Nodup := by decide

theorem mem_units_iff (s : Nat) (u : List Nat) : u ∈ units s ↔ u ∈ unitlist ∧ s ∈ u := by
  simp [units, List.mem_filter]

theorem mem_peersList_iff (s p : Nat) :
    p ∈ peersList s ↔ p ≠ s ∧ ∃ u ∈ unitlist, s ∈ u ∧ p ∈ u := by
  simp only [peersList, List.mem_filter, List.mem_dedup, List.mem_flatten,
    decide_eq_true_eq]
  constructor
  · rintro ⟨⟨u, hu, hp⟩, hne⟩
    rcases (mem_units_iff s u).mp hu with ⟨h1, h2⟩
    exact ⟨hne, u, h1, h2, hp⟩
  · rintro ⟨hne, u, h1, h2, hp⟩
    exact ⟨⟨u, (mem_units_iff s u).mpr ⟨h1, h2⟩, hp⟩, hne⟩

theorem peersList_symm (s p : Nat) : p ∈ peersList s ↔ s ∈ peersList p := by
  rw [mem_peersList_iff, mem_peersList_iff]
  constructor
  · rintro ⟨hne, u, h1, h2, h3⟩
    exact ⟨hne.symm, u, h1, h3, h2⟩
  · rintro ⟨hne, u, h1, h2, h3⟩
    exact ⟨hne.symm, u, h1, h3, h2⟩

theorem peersList_lt {s p : Nat} (h : p ∈ peersList s) : p < 81 := by
  rcases (mem_peersList_iff s p).mp h with ⟨_, u, h1, _, h3⟩
  exact mem_unitlist_lt u h1 p h3

theorem not_self_mem_peersList (s : Nat) : s ∉ peersList s := by
  intro h
  exact ((mem_peersList_iff s s).mp h).1 rfl

theorem mem_peersList_of_unit {u : List Nat} {x y : Nat}
    (hu : u ∈ unitlist) (hx : x ∈ u) (hy : y ∈ u) (hne : y ≠ x) : y ∈ peersList x :=
  (mem_peersList_iff x y).mpr ⟨hne, u, hu, hx, hy⟩

theorem peersList_nodup (s : Nat) : (peersList s).Nodup :=
  (List.nodup_dedup _).filter _

/-! ### MRV selection lemmas -/

theorem firstMinIdx_eq_none (st : SState) (l : List Nat) :
    firstMinIdx st l = none ↔ l = [] := by
  cases l with
  | nil => simp [firstMinIdx]
  | cons a l =>
    simp only [firstMinIdx]
    cases h : firstMinIdx st l with
    | none => simp
    | some m =>
      by_cases hle : keyLen st a ≤ keyLen st m
      · simp [hle]
      · simp [hle]

theorem head_insertionSort_eq_firstMinIdx (st : SState) (l : List Nat) :
    (List.insertionSort (mrvOrder st) l).head? = firstMinIdx st l := by
  induction l with
  | nil => rfl
  | cons a l ih =>
    show (List.orderedInsert (mrvOrder st) a (List.insertionSort (mrvOrder st) l)).head? =
      firstMinIdx st (a :: l)
    cases h : List.insertionSort (mrvOrder st) l with
    | nil =>
      have hl : l = [] := by
        have hlen := List.length_insertionSort (mrvOrder st) l
        rw [h] at hlen
        exact List.eq_nil_of_length_eq_zero hlen.symm
      subst hl
      rfl
    | cons b rest =>
      rw [h] at ih
      have hfold : firstMinIdx st (a :: l) =
          if keyLen st a ≤ keyLen st b then some a else some b := by
        simp only [firstMinIdx, ← ih, List.head?_cons]
      rw [hfold]
      simp only [List.orderedInsert]
      by_cases hab : keyLen st a ≤ keyLen st b
      · rw [if_pos (show mrvOrder st a b from hab), if_pos hab, List.head?_cons]
      · rw [if_neg (show ¬mrvOrder st a b from hab), if_neg hab, List.head?_cons]

theorem firstMinIdx_spec (st : SState) :
    ∀ (l : List Nat) (m : Nat), firstMinIdx st l = some m →
      m ∈ l ∧ (∀ t ∈ l, keyLen st m ≤ keyLen st t) ∧
        (l.Pairwise (· < ·) → ∀ t ∈ l, t < m → keyLen st m < keyLen st t) := by
  intro l
  induction l with
  | nil => intro m hm; simp [firstMinIdx] at hm
  | cons a l ih =>
    intro m hm
    simp only [firstMinIdx] at hm
    cases h : firstMinIdx st l with
    | none =>
      rw [h] at hm
      have hm2 : some a = some m := hm
      have hl : l = [] := (firstMinIdx_eq_none st l).mp h
      subst hl
      obtain rfl : a = m := by simpa using hm2
      refine ⟨by simp, ?_, ?_⟩
      · intro t ht
        obtain rfl : t = a := by simpa using ht
        exact le_rfl
      · intro _ t ht hlt
        obtain rfl : t = a := by simpa using ht
        omega
    | some m0 =>
      rw [h] at hm
      have hm2 : (if keyLen st a ≤ keyLen st m0 then some a else some m0) = some m := hm
      obtain ⟨hmem0, hmin0, hfirst0⟩ := ih m0 h
      by_cases hle : keyLen st a ≤ keyLen st m0
      · rw [if_pos hle] at hm2
        obtain rfl : a = m := by simpa using hm2
        refine ⟨by simp, ?_, ?_⟩
        · intro t ht
          rcases List.mem_cons.mp ht with rfl | htl
          · exact le_rfl
          · exact hle.trans (hmin0 t htl)
        · intro hpw t ht hlt
          rcases List.mem_cons.mp ht with rfl | htl
          · omega
          · have := (List.pairwise_cons.mp hpw).1 t htl
            omega
      · rw [if_neg hle] at hm2
        obtain rfl : m0 = m := by simpa using hm2
        refine ⟨List.mem_cons_of_mem a hmem0, ?_, ?_⟩
        · intro t ht
          rcases List.mem_cons.mp ht with rfl | htl
          · omega
          · exact hmin0 t htl
        · intro hpw t ht hlt
          rcases List.mem_cons.mp ht with rfl | htl
          · omega
          · exact hfirst0 (List.pairwise_cons.mp hpw).2 t htl hlt

theorem mem_blanks (st : SState) (s : Nat) :
    s ∈ blanks st ↔ s < 81 ∧ 1 < (dom st s).length := by
  simp [blanks, List.mem_filter, List.mem_range]

theorem blanks_pairwise (st : SState) : (blanks st).Pairwise (· < ·) :=
  (List.pairwise_lt_range 81).filter _

theorem mrv_eq_firstMinIdx (st : SState) : mrv st = firstMinIdx st (blanks st) :=
  head_insertionSort_eq_firstMinIdx st (blanks st)

theorem mrv_spec (st : SState) (c : Nat) (h : mrv st = some c) :
    c < 81 ∧ 1 < (dom st c).length ∧
      (∀ t, t < 81 → 1 < (dom st t).length → (dom st c).length ≤ (dom st t).length) ∧
      (∀ t, t < c → 1 < (dom st t).length → (dom st c).length < (dom st t).length) := by
  rw [mrv_eq_firstMinIdx] at h
  obtain ⟨hmem, hmin, hfirst⟩ := firstMinIdx_spec st (blanks st) c h
  obtain ⟨hc81, hclen⟩ := (mem_blanks st c).mp hmem
  refine ⟨hc81, hclen, ?_, ?_⟩
  · intro t ht81 htlen
    exact hmin t ((mem_blanks st t).mpr ⟨ht81, htlen⟩)
  · intro t htc htlen
    exact hfirst (blanks_pairwise st) t ((mem_blanks st t).mpr ⟨by omega, htlen⟩) htc

theorem mrv_none_iff (st : SState) :
    mrv st = none ↔ ∀ s, s < 81 → (dom st s).length ≤ 1 := by
  rw [mrv_eq_firstMinIdx, firstMinIdx_eq_none]
  constructor
  · intro h s hs
    by_contra hlen
    have : s ∈ blanks st := (mem_blanks st s).mpr ⟨hs, by omega⟩
    simp [h] at this
  · intro h
    by_contra hne
    obtain ⟨s, hs⟩ := List.exists_mem_of_ne_nil _ hne
    obtain ⟨h1, h2⟩ := (mem_blanks st s).mp hs
    have := h s h1
    omega

/-! ### Claim C7: peer topology -/

/-- C7: for every pair of board cells, peer membership is symmetric, no cell
is its own peer, and every cell has exactly 20 (distinct) peers. -/
theorem C7_peers_topology (x : Nat) (hx : x < 81) (y : Nat) (hy : y < 81) :
    (y ∈ peersList x ↔ x ∈ peersList y) ∧ x ∉ peersList x ∧
      (peersList x).Nodup ∧ (peersList x).length = 20 := by
  refine ⟨peersList_symm x y, not_self_mem_peersList x, peersList_nodup x, ?_⟩
  have hall : (List.range 81).all (fun s => (peersList s).length == 20) = true := by decide
  have := List.all_eq_true.mp hall x (List.mem_range.mpr hx)
  simpa using this

/-- Witness for C7 at the concrete cells 0 and 1. -/
theorem C7_peers_topology_witness :
    (1 ∈ peersList 0 ↔ 0 ∈ peersList 1) ∧ 0 ∉ peersList 0 ∧
      (peersList 0).Nodup ∧ (peersList 0).length = 20 :=
  C7_peers_topology 0 (by decide) 1 (by decide)

/-! ### Claim C8: order of a cell's units -/

/-- C8 counterexample: for square 1 (`A2`) the code's `units` does not list
the row-unit first — `unitlist` begins with the nine column units, so
`units` starts with the column unit. -/
theorem C8_counterexample : units 1 ≠ unitsRowColBox 1 := by decide

/-- C8 as amended: `units(cell)` is an ordered sequence of exactly 3 units:
the cell's column-unit first, then its row-unit, then its box-unit. -/
theorem C8_units_order (s : Nat) (hs : s < 81) :
    units s = [colUnit (s % 9), rowUnit (s / 9), boxUnit (s / 27) ((s % 9) / 3)] := by
  revert hs
  revert s
  decide

/-- Witness for the amended C8 at square 1. -/
theorem C8_units_order_witness :
    units 1 = [colUnit 1, rowUnit 0, boxUnit 0 0] :=
  C8_units_order 1 (by decide)

/-! ### Claim C3: parsing -/

/-- C3 counterexample: an input whose 82 characters are all recognized is
rejected (`assert len(chars) == 81` fails), not accepted by truncation. -/
theorem C3_counterexample :
    ((List.replicate 82 '1').filter recognized).length = 82 ∧
      grid_values (List.replicate 82 '1') = none := by
  constructor <;> decide

/-- C3 as amended: `grid_values` discards unrecognized characters and fails
unless exactly 81 recognized characters remain; on success the board is
exactly the filtered sequence, in row-major order. -/
theorem C3_grid_values (g : List Char) :
    (grid_values g = none ↔ (g.filter recognized).length ≠ 81) ∧
      (∀ b, grid_values g = some b → b = g.filter recognized ∧ b.length = 81) := by
  unfold grid_values
  by_cases h : (g.filter recognized).length = 81
  · rw [if_pos h]
    refine ⟨by simp [h], ?_⟩
    intro b hb
    obtain rfl : g.filter recognized = b := by simpa using hb
    exact ⟨rfl, h⟩
  · rw [if_neg h]
    exact ⟨by simp [h], by intro b hb; simp at hb⟩

/-- Witness for the amended C3 at a concrete 81-character input. -/
theorem C3_grid_values_witness :
    List.replicate 81 '1' = (List.replicate 81 '1').filter recognized ∧
      (List.replicate 81 '1' : List Char).length = 81 :=
  (C3_grid_values (List.replicate 81 '1')).2 (List.replicate 81 '1') (by decide)

/-! ### Claim C4: the MRV selection -/

/-- C4: whenever the MRV selection returns a square, that square's domain
size exceeds 1, is minimal among all squares with domain size above 1, and
ties are broken toward the first such square in row-major order. -/
theorem C4_mrv_selection (st : SState) (c : Nat) (h : mrv st = some c) :
    c < 81 ∧ 1 < (dom st c).length ∧
      (∀ t, t < 81 → 1 < (dom st t).length → (dom st c).length ≤ (dom st t).length) ∧
      (∀ t, t < c → 1 < (dom st t).length → (dom st c).length < (dom st t).length) :=
  mrv_spec st c h

/-- Witness for C4 at a concrete state whose branching squares are 5
(domain size 3) and 7 (domain size 2): square 7 is selected. -/
theorem C4_mrv_selection_witness :
    7 < 81 ∧ 1 < (dom stC4w 7).length ∧
      (∀ t, t < 81 → 1 < (dom stC4w t).length → (dom stC4w 7).length ≤ (dom stC4w t).length) ∧
      (∀ t, t < 7 → 1 < (dom stC4w t).length → (dom stC4w 7).length < (dom stC4w t).length) :=
  C4_mrv_selection stC4w 7 (by decide)

/-! ### Claim C10: the unguarded indexing in the MRV selection -/

/-- C10: the `blank_squares[0]` access is in bounds exactly when some square
has domain size above 1, and the not-all-singletons test does not imply this:
the concrete state `stC10x` (eighty singleton domains and one empty domain)
fails the all-singleton test yet makes the selection raise. -/
theorem C10_mrv_guard :
    (∀ st : SState, (mrv st).isSome = true ↔ ∃ s, s < 81 ∧ 1 < (dom st s).length) ∧
      allSingleton stC10x = false ∧ mrv stC10x = none := by
  refine ⟨?_, by decide, by decide⟩
  intro st
  rw [Option.isSome_iff_ne_none]
  constructor
  · intro hne
    by_contra hno
    push_neg at hno
    exact hne ((mrv_none_iff st).mpr (by intro s hs; have := hno s hs; omega))
  · rintro ⟨s, hs, hlen⟩ hnone
    have := (mrv_none_iff st).mp hnone s hs
    omega

/-- Witness for C10: the equivalence applied at the concrete state. -/
theorem C10_mrv_guard_witness : allSingleton stC10x = false ∧ mrv stC10x = none :=
  ⟨C10_mrv_guard.2.1, C10_mrv_guard.2.2⟩

/-! ### Elementary facts about `afterRemoval` -/

theorem dom_afterRemoval_ne (st : SState) (sq t : Nat) (v : List Char) (h : t ≠ sq) :
    dom (afterRemoval st sq v) t = dom st t :=
  dom_setDom_ne st sq t _ h

theorem gridOf_afterRemoval (st : SState) (sq t : Nat) (v : List Char) :
    gridOf (afterRemoval st sq v) t = gridOf st t := rfl

theorem dom_afterRemoval_self (st : SState) (sq : Nat) (v : List Char)
    (h : sq < st.values.length) :
    dom (afterRemoval st sq v) sq = pyReplace (dom st sq) v :=
  dom_setDom_self st sq _ h

theorem dom_afterRemoval_sub (st : SState) (sq t : Nat) (v : List Char) :
    (dom (afterRemoval st sq v) t).Sublist (dom st t) := by
  by_cases ht : t = sq
  · subst ht
    by_cases hlt : t < st.values.length
    · rw [dom_afterRemoval_self st t v hlt]
      exact pyReplace_sublist _ _
    · show ((st.values.set t _).getD t []).Sublist (dom st t)
      rw [List.set_eq_of_length_le (by omega)]
      exact List.Sublist.refl _
  · rw [dom_afterRemoval_ne st sq t v ht]

theorem LenEq_afterRemoval (st : SState) (sq : Nat) (v : List Char) :
    LenEq st (afterRemoval st sq v) :=
  ⟨List.length_set .., rfl⟩

/-! ### Generic chain lemmas for the Option-threaded folds -/

theorem elimPeers_chain {f : SState → Nat → List Char → Option SState}
    {R : SState → SState → Prop}
    (hrefl : ∀ st, R st st)
    (htrans : ∀ a b c, R a b → R b c → R a c)
    (hf : ∀ st p v st2, p < 81 → f st p v = some st2 → R st st2) :
    ∀ (ps : List Nat), (∀ p ∈ ps, p < 81) →
      ∀ (sq : Nat) (st st2 : SState), elimPeers f sq ps st = some st2 → R st st2 := by
  intro ps
  induction ps with
  | nil =>
    intro _ sq st st2 h
    obtain rfl : st = st2 := by simpa [elimPeers] using h
    exact hrefl st
  | cons p ps ih =>
    intro hps sq st st2 h
    simp only [elimPeers] at h
    cases hf1 : f st p (dom st sq) with
    | none => rw [hf1] at h; exact Option.noConfusion h
    | some stm =>
      rw [hf1] at h
      exact htrans _ _ _ (hf st p _ stm (hps p (by simp)) hf1)
        (ih (fun q hq => hps q (by simp [hq])) sq stm st2 h)

theorem elimVals_chain {f : SState → Nat → List Char → Option SState}
    {R : SState → SState → Prop}
    (hrefl : ∀ st, R st st)
    (htrans : ∀ a b c, R a b → R b c → R a c)
    (sq : Nat)
    (hf : ∀ st c st2, f st sq [c] = some st2 → R st st2) :
    ∀ (cs : List Char) (st st2 : SState), elimVals f sq cs st = some st2 → R st st2 := by
  intro cs
  induction cs with
  | nil =>
    intro st st2 h
    obtain rfl : st = st2 := by simpa [elimVals] using h
    exact hrefl st
  | cons c cs ih =>
    intro st st2 h
    simp only [elimVals] at h
    cases hf1 : f st sq [c] with
    | none => rw [hf1] at h; exact Option.noConfusion h
    | some stm =>
      rw [hf1] at h
      exact htrans _ _ _ (hf st c stm hf1) (ih stm st2 h)

theorem propSquares_chain {fuel : Nat} {R : SState → SState → Prop}
    (hrefl : ∀ st, R st st)
    (htrans : ∀ a b c, R a b → R b c → R a c)
    (hstep : ∀ st sq st2, sq < 81 → propStep fuel st sq = some st2 → R st st2) :
    ∀ (sqs : List Nat), (∀ q ∈ sqs, q < 81) →
      ∀ (st st2 : SState), propSquares fuel sqs st = some st2 → R st st2 := by
  intro sqs
  induction sqs with
  | nil =>
    intro _ st st2 h
    obtain rfl : st = st2 := by simpa [propSquares] using h
    exact hrefl st
  | cons q sqs ih =>
    intro hqs st st2 h
    simp only [propSquares] at h
    cases hf1 : propStep fuel st q with
    | none => rw [hf1] at h; exact Option.noConfusion h
    | some stm =>
      rw [hf1] at h
      exact htrans _ _ _ (hstep st q stm (hqs q (by simp)) hf1) (ih (fun r hr => hqs r (by simp [hr])) stm st2 h)

/-! ### Length preservation and monotonicity of the eliminations -/

theorem LenEq_refl (st : SState) : LenEq st st := ⟨rfl, rfl⟩

theorem LenEq_trans (a b c : SState) (h1 : LenEq a b) (h2 : LenEq b c) : LenEq a c :=
  ⟨h2.1.trans h1.1, h2.2.trans h1.2⟩

theorem elim_lengths :
    ∀ (fuel : Nat) (st : SState) (sq : Nat) (v : List Char) (st2 : SState),
      elim fuel st sq v = some st2 → LenEq st st2 := by
  intro fuel
  induction fuel with
  | zero => intro st sq v st2 h; exact Option.noConfusion h
  | succ fuel ih =>
    intro st sq v st2 h
    rw [elim] at h
    by_cases hin : pyIn v (dom st sq) = false
    · rw [if_pos hin] at h
      obtain rfl : st = st2 := by simpa using h
      exact LenEq_refl st
    · rw [if_neg hin] at h
      by_cases hfire : (dom (afterRemoval st sq v) sq).length = 1
      · rw [if_pos hfire] at h
        have hrest := elimPeers_chain LenEq_refl LenEq_trans
          (fun st p v st2 _ hf => ih st p v st2 hf)
          (peersList sq) (fun p hp => peersList_lt hp) sq _ st2 h
        refine LenEq_trans _ _ _ ?_ hrest
        refine LenEq_trans _ _ _ (LenEq_afterRemoval st sq v) ?_
        exact ⟨rfl, List.length_set ..⟩
      · rw [if_neg hfire] at h
        obtain rfl : afterRemoval st sq v = st2 := by simpa using h
        exact LenEq_afterRemoval st sq v

theorem MonoR_refl (st : SState) : MonoR st st := fun t => List.Sublist.refl _

theorem MonoR_trans (a b c : SState) (h1 : MonoR a b) (h2 : MonoR b c) : MonoR a c :=
  fun t => (h2 t).trans (h1 t)

theorem elim_mono :
    ∀ (fuel : Nat) (st : SState) (sq : Nat) (v : List Char) (st2 : SState),
      elim fuel st sq v = some st2 → MonoR st st2 := by
  intro fuel
  induction fuel with
  | zero => intro st sq v st2 h; exact Option.noConfusion h
  | succ fuel ih =>
    intro st sq v st2 h
    rw [elim] at h
    by_cases hin : pyIn v (dom st sq) = false
    · rw [if_pos hin] at h
      obtain rfl : st = st2 := by simpa using h
      exact MonoR_refl st
    · rw [if_neg hin] at h
      have hmono1 : MonoR st (afterRemoval st sq v) := fun t => dom_afterRemoval_sub st sq t v
      by_cases hfire : (dom (afterRemoval st sq v) sq).length = 1
      · rw [if_pos hfire] at h
        have hrest := elimPeers_chain MonoR_refl MonoR_trans
          (fun st p v st2 _ hf => ih st p v st2 hf)
          (peersList sq) (fun p hp => peersList_lt hp) sq _ st2 h
        exact MonoR_trans _ _ _ hmono1 hrest
      · rw [if_neg hfire] at h
        obtain rfl : afterRemoval st sq v = st2 := by simpa using h
        exact hmono1

theorem elim_notMem (fuel : Nat) (st : SState) (sq : Nat) (c : Char) (st2 : SState)
    (hsq : sq < st.values.length)
    (h : elim fuel st sq [c] = some st2) : c ∉ dom st2 sq := by
  cases fuel with
  | zero => exact Option.noConfusion h
  | succ fuel =>
    rw [elim] at h
    by_cases hin : pyIn [c] (dom st sq) = false
    · rw [if_pos hin] at h
      obtain rfl : st = st2 := by simpa using h
      intro hc
      rw [(pyIn_singleton c (dom st sq)).mpr hc] at hin
      exact Bool.noConfusion hin
    · rw [if_neg hin] at h
      have hrm : dom (afterRemoval st sq [c]) sq = (dom st sq).filter (fun x => x != c) := by
        rw [dom_afterRemoval_self st sq [c] hsq, pyReplace_singleton]
      have hnot : c ∉ dom (afterRemoval st sq [c]) sq := by
        rw [hrm]
        intro hc
        have := (List.mem_filter.mp hc).2
        simp at this
      by_cases hfire : (dom (afterRemoval st sq [c]) sq).length = 1
      · rw [if_pos hfire] at h
        have hmono := elimPeers_chain MonoR_refl MonoR_trans
          (fun st p v st2 _ hf => elim_mono fuel st p v st2 hf)
          (peersList sq) (fun p hp => peersList_lt hp) sq _ st2 h
        intro hc
        exact hnot ((hmono sq).subset hc)
      · rw [if_neg hfire] at h
        obtain rfl : afterRemoval st sq [c] = st2 := by simpa using h
        exact hnot

/-! ### The `Clean2` tower: newly created singletons are cleared from peers -/

theorem WF_of_LenEq {a b : SState} (h : LenEq a b) (ha : WF a) : WF b :=
  ⟨h.1.trans ha.1, h.2.trans ha.2⟩

theorem elim_WF (fuel : Nat) (st : SState) (sq : Nat) (v : List Char) (st2 : SState)
    (h : elim fuel st sq v = some st2) (hwf : WF st) : WF st2 :=
  WF_of_LenEq (elim_lengths fuel st sq v st2 h) hwf

theorem Clean2_refl (st : SState) : Clean2 st st := by
  intro t c h1 h2
  exact absurd h1 h2

theorem Clean2_trans {a b c : SState} (h1 : Clean2 a b) (h2 : Clean2 b c) (hm : MonoR b c) :
    Clean2 a c := by
  intro t x hct hat p hp
  by_cases hbt : dom b t = [x]
  · intro hxc
    exact h1 t x hbt hat p hp ((hm p).subset hxc)
  · exact h2 t x hct hbt p hp

theorem sublist_singleton_eq {l : List Char} {x c0 : Char}
    (h1 : l = [x]) (h2 : l.Sublist [c0]) : x = c0 := by
  subst h1
  have := h2.eq_of_length (by simp)
  simpa using this

theorem elimPeers_clear (fuel : Nat) (c0 : Char) (sq : Nat) :
    ∀ (ps : List Nat), (∀ p ∈ ps, p < 81) → ∀ (st st2 : SState),
      WF st → elimPeers (elim fuel) sq ps st = some st2 →
      dom st sq = [c0] → dom st2 sq = [c0] →
      ∀ p ∈ ps, c0 ∉ dom st2 p := by
  intro ps
  induction ps with
  | nil => intro _ st st2 _ _ _ _ p hp; simp at hp
  | cons p ps ih =>
    intro hps st st2 hwf h hsq hsq2 q hq
    simp only [elimPeers] at h
    cases hf1 : elim fuel st p (dom st sq) with
    | none => rw [hf1] at h; exact Option.noConfusion h
    | some stm =>
      rw [hf1] at h
      rw [hsq] at hf1
      have hwfm : WF stm := elim_WF fuel st p [c0] stm hf1 hwf
      have hmono1 : MonoR st stm := elim_mono fuel st p [c0] stm hf1
      have hmonoRest : MonoR stm st2 := elimPeers_chain MonoR_refl MonoR_trans
        (fun st p v st2 _ hf => elim_mono fuel st p v st2 hf)
        ps (fun r hr => hps r (by simp [hr])) sq stm st2 h
      have hsqm : dom stm sq = [c0] := by
        have hup : (dom stm sq).Sublist [c0] := hsq ▸ hmono1 sq
        have hlow : (dom st2 sq).Sublist (dom stm sq) := hmonoRest sq
        rw [hsq2] at hlow
        have hlen : (dom stm sq).length = 1 :=
          le_antisymm (by simpa using hup.length_le) (by simpa using hlow.length_le)
        exact hup.eq_of_length (by simpa using hlen)
      rcases List.mem_cons.mp hq with rfl | hqs
      · have hnot : c0 ∉ dom stm q :=
          elim_notMem fuel st q c0 stm (by rw [hwf.1]; exact hps q (by simp)) hf1
        intro hc
        exact hnot ((hmonoRest q).subset hc)
      · exact ih (fun r hr => hps r (by simp [hr])) stm st2 hwfm h hsqm hsq2 q hqs

theorem CR_refl (st : SState) : CR st st := fun hwf => ⟨hwf, Clean2_refl st, MonoR_refl st⟩

theorem CR_trans (a b c : SState) (h1 : CR a b) (h2 : CR b c) : CR a c := by
  intro hwa
  obtain ⟨hwb, hcab, hmab⟩ := h1 hwa
  obtain ⟨hwc, hcbc, hmbc⟩ := h2 hwb
  exact ⟨hwc, Clean2_trans hcab hcbc hmbc, MonoR_trans _ _ _ hmab hmbc⟩

theorem elim_clean :
    ∀ (fuel : Nat) (st : SState) (sq : Nat) (v : List Char) (st2 : SState),
      elim fuel st sq v = some st2 → sq < 81 → WF st → Clean2 st st2 := by
  intro fuel
  induction fuel with
  | zero => intro st sq v st2 h; exact Option.noConfusion h
  | succ fuel ih =>
    intro st sq v st2 h hsq hwf
    rw [elim] at h
    by_cases hin : pyIn v (dom st sq) = false
    · rw [if_pos hin] at h
      obtain rfl : st = st2 := by simpa using h
      exact Clean2_refl st
    · rw [if_neg hin] at h
      by_cases hfire : (dom (afterRemoval st sq v) sq).length = 1
      · rw [if_pos hfire] at h
        obtain ⟨c0, hc0⟩ := List.length_eq_one.mp hfire
        have hdomg : ∀ t, dom (setGrid (afterRemoval st sq v) sq (dom (afterRemoval st sq v) sq)) t
            = dom (afterRemoval st sq v) t := fun t => rfl
        have hwfg : WF (setGrid (afterRemoval st sq v) sq (dom (afterRemoval st sq v) sq)) :=
          WF_setGrid _ _ _ (WF_setDom _ _ _ hwf)
        have hmonoFold : MonoR _ st2 := elimPeers_chain MonoR_refl MonoR_trans
          (fun st p v st2 _ hf => elim_mono fuel st p v st2 hf)
          (peersList sq) (fun p hp => peersList_lt hp) sq _ st2 h
        intro t x hdom2 hdomne p hp
        by_cases ht : t = sq
        · subst ht
          have hsub : (dom st2 t).Sublist [c0] := by
            have := hmonoFold t
            rwa [hdomg t, hc0] at this
          obtain rfl : x = c0 := sublist_singleton_eq hdom2 hsub
          exact elimPeers_clear fuel x t (peersList t) (fun q hq => peersList_lt hq)
            _ st2 hwfg h (by rw [hdomg t, hc0]) hdom2 p hp
        · have hclean :
              Clean2 (setGrid (afterRemoval st sq v) sq (dom (afterRemoval st sq v) sq)) st2 := by
            have hcr : CR (setGrid (afterRemoval st sq v) sq (dom (afterRemoval st sq v) sq)) st2 :=
              elimPeers_chain CR_refl CR_trans
              (fun st p v st2 hp hf => fun hwfa =>
                ⟨elim_WF fuel st p v st2 hf hwfa, ih st p v st2 hf hp hwfa,
                  elim_mono fuel st p v st2 hf⟩)
              (peersList sq) (fun q hq => peersList_lt hq) sq _ st2 h
            exact (hcr hwfg).2.1
          have hne2 : dom (setGrid (afterRemoval st sq v) sq (dom (afterRemoval st sq v) sq)) t
              ≠ [x] := by
            rw [hdomg t, dom_afterRemoval_ne st sq t v ht]
            exact hdomne
          exact hclean t x hdom2 hne2 p hp
      · rw [if_neg hfire] at h
        obtain rfl : afterRemoval st sq v = st2 := by simpa using h
        intro t x hdom2 hdomne p hp
        by_cases ht : t = sq
        · subst ht
          rw [hdom2] at hfire
          simp at hfire
        · rw [dom_afterRemoval_ne st sq t v ht] at hdom2
          exact absurd hdom2 hdomne

/-! ### The `PBNE` tower: invariant bundle, no-op stability, grid evolution -/

theorem NoOpAt_stable {st st2 : SState} (t : Nat) (h : NoOpAt st t)
    (heq : gridOf st2 t = gridOf st t) (hm : (dom st2 t).Sublist (dom st t)) :
    NoOpAt st2 t := by
  intro c hg hc x hx
  rw [heq] at hg
  exact h c hg hc (hm.subset hx)

theorem PBNE_refl (st : SState) : PBNE st st :=
  fun hpb => ⟨hpb, fun _ h => h, fun _ => Or.inl rfl⟩

theorem PBNE_trans (a b c : SState) (h1 : PBNE a b) (h2 : PBNE b c) : PBNE a c := by
  intro hpa
  obtain ⟨hpb, hn1, hg1⟩ := h1 hpa
  obtain ⟨hpc, hn2, hg2⟩ := h2 hpb
  refine ⟨hpc, fun t h => hn2 t (hn1 t h), ?_⟩
  intro t
  rcases hg2 t with h | h
  · rcases hg1 t with h2' | h2'
    · exact Or.inl (h.trans h2')
    · refine Or.inr ⟨hn2 t h2'.1, ?_⟩
      obtain ⟨x, hx1, hx2⟩ := h2'.2
      exact ⟨x, h.trans hx1, hx2⟩
  · exact Or.inr h

theorem elim_PB :
    ∀ (fuel : Nat) (st : SState) (sq : Nat) (v : List Char) (st2 : SState),
      elim fuel st sq v = some st2 → sq < 81 → PBNE st st2 := by
  intro fuel
  induction fuel with
  | zero => intro st sq v st2 h; exact Option.noConfusion h
  | succ fuel ih =>
    intro st sq v st2 h hsq
    rw [elim] at h
    by_cases hin : pyIn v (dom st sq) = false
    · rw [if_pos hin] at h
      obtain rfl : st = st2 := by simpa using h
      exact PBNE_refl st
    · rw [if_neg hin] at h
      by_cases hfire : (dom (afterRemoval st sq v) sq).length = 1
      · rw [if_pos hfire] at h
        obtain ⟨c0, hc0⟩ := List.length_eq_one.mp hfire
        have hstep1 : PBNE st (setGrid (afterRemoval st sq v) sq (dom (afterRemoval st sq v) sq)) := by
          intro hpb
          obtain ⟨hwf, hg1, hdv, hj⟩ := hpb
          have hwfr : WF (afterRemoval st sq v) := WF_setDom _ _ _ hwf
          have hsqg : sq < (afterRemoval st sq v).grid.length := by rw [hwfr.2]; exact hsq
          have hdomg : ∀ t, dom (setGrid (afterRemoval st sq v) sq (dom (afterRemoval st sq v) sq)) t
              = dom (afterRemoval st sq v) t := fun t => rfl
          have hgridsq : gridOf (setGrid (afterRemoval st sq v) sq (dom (afterRemoval st sq v) sq)) sq
              = [c0] := by
            rw [gridOf_setGrid_self _ _ _ hsqg, hc0]
          have hgridne : ∀ t, t ≠ sq →
              gridOf (setGrid (afterRemoval st sq v) sq (dom (afterRemoval st sq v) sq)) t
              = gridOf st t := by
            intro t ht
            rw [gridOf_setGrid_ne _ _ _ _ ht, gridOf_afterRemoval]
          have hc0dig : c0 ∈ digitsL := by
            have hmem : c0 ∈ dom (afterRemoval st sq v) sq := by rw [hc0]; simp
            exact hdv sq ((dom_afterRemoval_sub st sq sq v).subset hmem)
          have hnoopsq : NoOpAt (setGrid (afterRemoval st sq v) sq (dom (afterRemoval st sq v) sq)) sq := by
            intro c hgc _
            rw [hgridsq] at hgc
            obtain rfl : c0 = c := by simpa using hgc
            rw [hdomg sq, hc0]
            exact fun y hy => hy
          refine ⟨⟨WF_setGrid _ _ _ hwfr, ?_, ?_, ?_⟩, ?_, ?_⟩
          · intro t ht
            by_cases htq : t = sq
            · subst htq; rw [hgridsq]; rfl
            · rw [hgridne t htq]; exact hg1 t ht
          · intro t
            intro x hx
            exact hdv t ((dom_afterRemoval_sub st sq t v).subset (by rw [← hdomg t]; exact hx))
          · intro t hlen
            by_cases htq : t = sq
            · subst htq
              rw [hgridsq, hdomg t, hc0]
            · rw [hdomg t, dom_afterRemoval_ne st sq t v htq] at hlen
              rw [hgridne t htq, hdomg t, dom_afterRemoval_ne st sq t v htq]
              exact hj t hlen
          · intro t hno
            by_cases htq : t = sq
            · subst htq; exact hnoopsq
            · exact NoOpAt_stable t hno (hgridne t htq)
                (by rw [hdomg t, dom_afterRemoval_ne st sq t v htq])
          · intro t
            by_cases htq : t = sq
            · subst htq
              exact Or.inr ⟨hnoopsq, c0, hgridsq, hc0dig⟩
            · exact Or.inl (hgridne t htq)
        have hrest : PBNE (setGrid (afterRemoval st sq v) sq (dom (afterRemoval st sq v) sq)) st2 :=
          elimPeers_chain PBNE_refl PBNE_trans
            (fun st p v st2 hp hf => ih st p v st2 hf hp)
            (peersList sq) (fun p hp => peersList_lt hp) sq _ st2 h
        exact PBNE_trans _ _ _ hstep1 hrest
      · rw [if_neg hfire] at h
        obtain rfl : afterRemoval st sq v = st2 := by simpa using h
        intro hpb
        obtain ⟨hwf, hg1, hdv, hj⟩ := hpb
        refine ⟨⟨WF_setDom _ _ _ hwf, hg1, ?_, ?_⟩, ?_, fun t => Or.inl rfl⟩
        · intro t x hx
          exact hdv t ((dom_afterRemoval_sub st sq t v).subset hx)
        · intro t hlen
          by_cases htq : t = sq
          · subst htq; exact absurd hlen hfire
          · rw [dom_afterRemoval_ne st sq t v htq] at hlen ⊢
            exact hj t hlen
        · intro t hno
          exact NoOpAt_stable t hno rfl (dom_afterRemoval_sub st sq t v)

/-! ### Lifting to `propStep` and `propSquares` -/

theorem propStep_mono (fuel : Nat) (st : SState) (sq : Nat) (st2 : SState)
    (h : propStep fuel st sq = some st2) : MonoR st st2 := by
  rw [propStep] at h
  by_cases hin : pyIn (gridOf st sq) digitsL = true
  · rw [if_pos hin] at h
    exact elimVals_chain MonoR_refl MonoR_trans sq
      (fun st c st2 hf => elim_mono fuel st sq [c] st2 hf) _ st st2 h
  · rw [if_neg hin] at h
    obtain rfl : st = st2 := by simpa using h
    exact MonoR_refl st

theorem propStep_PBNE (fuel : Nat) (st : SState) (sq : Nat) (st2 : SState)
    (hsq : sq < 81) (h : propStep fuel st sq = some st2) : PBNE st st2 := by
  rw [propStep] at h
  by_cases hin : pyIn (gridOf st sq) digitsL = true
  · rw [if_pos hin] at h
    exact elimVals_chain PBNE_refl PBNE_trans sq
      (fun st c st2 hf => elim_PB fuel st sq [c] st2 hf hsq) _ st st2 h
  · rw [if_neg hin] at h
    obtain rfl : st = st2 := by simpa using h
    exact PBNE_refl st

theorem elimVals_clear (fuel : Nat) (sq : Nat) :
    ∀ (cs : List Char) (st st2 : SState), WF st → sq < 81 →
      elimVals (elim fuel) sq cs st = some st2 → ∀ c ∈ cs, c ∉ dom st2 sq := by
  intro cs
  induction cs with
  | nil => intro st st2 _ _ _ c hc; simp at hc
  | cons c cs ih =>
    intro st st2 hwf hsq h x hx
    simp only [elimVals] at h
    cases hf1 : elim fuel st sq [c] with
    | none => rw [hf1] at h; exact Option.noConfusion h
    | some stm =>
      rw [hf1] at h
      have hmonoRest : MonoR stm st2 := elimVals_chain MonoR_refl MonoR_trans sq
        (fun st c st2 hf => elim_mono fuel st sq [c] st2 hf) cs stm st2 h
      rcases List.mem_cons.mp hx with rfl | hxs
      · have hnot : x ∉ dom stm sq :=
          elim_notMem fuel st sq x stm (by rw [hwf.1]; exact hsq) hf1
        intro hmem
        exact hnot ((hmonoRest sq).subset hmem)
      · exact ih stm st2 (elim_WF fuel st sq [c] stm hf1 hwf) hsq h x hxs

theorem propStep_establishes (fuel : Nat) (st : SState) (sq : Nat) (st2 : SState)
    (hsq : sq < 81) (hpb : PB st) (h : propStep fuel st sq = some st2) : NoOpAt st2 sq := by
  rw [propStep] at h
  by_cases hin : pyIn (gridOf st sq) digitsL = true
  · rw [if_pos hin] at h
    obtain ⟨g0, hg0⟩ := List.length_eq_one.mp (hpb.2.1 sq hsq)
    have hg0dig : g0 ∈ digitsL := by
      rw [hg0] at hin
      exact (pyIn_singleton g0 digitsL).mp hin
    rw [hg0, pyReplace_singleton] at h
    have hclear := elimVals_clear fuel sq _ st st2 hpb.1 hsq h
    have hmono := elimVals_chain MonoR_refl MonoR_trans sq
      (fun st c st2 hf => elim_mono fuel st sq [c] st2 hf) _ st st2 h
    have hsub : dom st2 sq ⊆ [g0] := by
      intro x hx
      by_cases hxg : x = g0
      · simp [hxg]
      · have hxin : x ∈ dom st sq := (hmono sq).subset hx
        have : x ∈ (dom st sq).filter (fun y => y != g0) :=
          List.mem_filter.mpr ⟨hxin, by simp [hxg]⟩
        exact absurd hx (hclear x this)
    have hev : GridEvolve st st2 :=
      (elimVals_chain PBNE_refl PBNE_trans sq
        (fun st c st2 hf => elim_PB fuel st sq [c] st2 hf hsq) _ st st2 h hpb).2.2
    rcases hev sq with hgeq | hright
    · intro c hgc _
      rw [hgeq, hg0] at hgc
      obtain rfl : g0 = c := by simpa using hgc
      exact hsub
    · exact hright.1
  · rw [if_neg hin] at h
    obtain rfl : st = st2 := by simpa using h
    intro c hgc hcd
    rw [hgc] at hin
    exact absurd ((pyIn_singleton c digitsL).mpr hcd) hin

theorem propSquares_noop (fuel : Nat) :
    ∀ (sqs : List Nat), (∀ q ∈ sqs, q < 81) → ∀ (st st2 : SState),
      PB st → propSquares fuel sqs st = some st2 →
      (∀ s, s < 81 → NoOpAt st s ∨ s ∈ sqs) →
      PB st2 ∧ (∀ s, s < 81 → NoOpAt st2 s) := by
  intro sqs
  induction sqs with
  | nil =>
    intro _ st st2 hpb h hall
    obtain rfl : st = st2 := by simpa [propSquares] using h
    refine ⟨hpb, fun s hs => ?_⟩
    rcases hall s hs with h | h
    · exact h
    · simp at h
  | cons q sqs ih =>
    intro hqs st st2 hpb h hall
    simp only [propSquares] at h
    cases hf1 : propStep fuel st q with
    | none => rw [hf1] at h; exact Option.noConfusion h
    | some stm =>
      rw [hf1] at h
      have hq81 : q < 81 := hqs q (by simp)
      obtain ⟨hpbm, hnpres, _⟩ := propStep_PBNE fuel st q stm hq81 hf1 hpb
      have hfresh : NoOpAt stm q := propStep_establishes fuel st q stm hq81 hpb hf1
      refine ih (fun r hr => hqs r (by simp [hr])) stm st2 hpbm h ?_
      intro s hs
      rcases hall s hs with hno | hmem
      · exact Or.inl (hnpres s hno)
      · rcases List.mem_cons.mp hmem with rfl | hmem2
        · exact Or.inl hfresh
        · exact Or.inr hmem2

/-! ### The initial state -/

theorem getD_replicate {α : Type} (a d : α) :
    ∀ (n i : Nat), (List.replicate n a).getD i d = if i < n then a else d := by
  intro n
  induction n with
  | zero => intro i; simp
  | succ n ih =>
    intro i
    cases i with
    | zero => simp [List.replicate]
    | succ j =>
      simp only [List.replicate, List.getD_cons_succ, ih j]
      by_cases hj : j < n
      · rw [if_pos hj, if_pos (by omega)]
      · rw [if_neg hj, if_neg (by omega)]

theorem dom_initState (b : List Char) (s : Nat) :
    dom (initState b) s = if s < 81 then digitsL else [] :=
  getD_replicate digitsL [] 81 s

theorem getD_map_singleton :
    ∀ (b : List Char) (s : Nat), s < b.length →
      (b.map (fun c => [c])).getD s [] = [b.getD s ' '] := by
  intro b
  induction b with
  | nil => intro s hs; simp at hs
  | cons c cs ih =>
    intro s hs
    cases s with
    | zero => rfl
    | succ j => simpa using ih j (by simpa using hs)

theorem gridOf_initState (b : List Char) (s : Nat) (h : s < b.length) :
    gridOf (initState b) s = [b.getD s ' '] :=
  getD_map_singleton b s h

theorem PB_initState (b : List Char) (hb : b.length = 81) : PB (initState b) := by
  refine ⟨⟨by simp [initState], by simp [initState, hb]⟩, ?_, ?_, ?_⟩
  · intro s hs
    rw [gridOf_initState b s (by omega)]
    rfl
  · intro s x hx
    rw [dom_initState] at hx
    by_cases hs : s < 81
    · rw [if_pos hs] at hx; exact hx
    · rw [if_neg hs] at hx; simp at hx
  · intro s hlen
    rw [dom_initState] at hlen
    by_cases hs : s < 81
    · rw [if_pos hs] at hlen; simp [digitsL] at hlen
    · rw [if_neg hs] at hlen; simp at hlen

theorem propagate_noop (fuel : Nat) (b : List Char) (st : SState) (hb : b.length = 81)
    (h : propagateO fuel (initState b) = some st) :
    PB st ∧ (∀ s, s < 81 → NoOpAt st s) :=
  propSquares_noop fuel (List.range 81) (fun q hq => List.mem_range.mp hq)
    (initState b) st (PB_initState b hb) h
    (fun s hs => Or.inr (List.mem_range.mpr hs))

/-! ### Second propagation run is the identity -/

theorem propSquares_id (fuel2 : Nat) :
    ∀ (sqs : List Nat) (st : SState), (∀ q ∈ sqs, q < 81) → GridLen1 st →
      (∀ s, s < 81 → NoOpAt st s) → propSquares fuel2 sqs st = some st := by
  intro sqs
  induction sqs with
  | nil => intro st _ _ _; rfl
  | cons q sqs ih =>
    intro st hqs hg1 hno
    have hq81 : q < 81 := hqs q (by simp)
    have hstep : propStep fuel2 st q = some st := by
      rw [propStep]
      by_cases hin : pyIn (gridOf st q) digitsL = true
      · rw [if_pos hin]
        obtain ⟨g0, hg0⟩ := List.length_eq_one.mp (hg1 q hq81)
        have hg0dig : g0 ∈ digitsL := by
          rw [hg0] at hin
          exact (pyIn_singleton g0 digitsL).mp hin
        have hsub : dom st q ⊆ [g0] := hno q hq81 g0 hg0 hg0dig
        rw [hg0, pyReplace_singleton, (filter_ne_eq_nil_iff _ _).mpr hsub]
        rfl
      · rw [if_neg hin]
    simp only [propSquares, hstep]
    exact ih st (fun r hr => hqs r (by simp [hr])) hg1 hno

theorem grid_values_some_eq {g b : List Char} (h : grid_values g = some b) :
    b = g.filter recognized ∧ b.length = 81 := by
  unfold grid_values at h
  by_cases hl : (g.filter recognized).length = 81
  · rw [if_pos hl] at h
    obtain rfl : g.filter recognized = b := by simpa using h
    exact ⟨rfl, hl⟩
  · rw [if_neg hl] at h
    exact Option.noConfusion h

/-! ### Claim C6: idempotence of propagation -/

/-- C6: for every parsed board, a completed `propagate` run reaches a fixed
point — immediately running `propagate` again (with any fuel) changes
nothing: every domain and every grid entry is exactly as the first run left
it. -/
theorem C6_propagate_idempotent (input b : List Char) (fuel : Nat) (st : SState)
    (h1 : grid_values input = some b) (h2 : propagateO fuel (initState b) = some st) :
    ∀ fuel2, propagateO fuel2 st = some st := by
  intro fuel2
  obtain ⟨hpb, hnoop⟩ := propagate_noop fuel b st (grid_values_some_eq h1).2 h2
  exact propSquares_id fuel2 (List.range 81) st (fun q hq => List.mem_range.mp hq)
    hpb.2.1 hnoop

/-- Witness for C6: the all-blank puzzle propagates to itself, and the second
run (even with no fuel) leaves the state untouched. -/
theorem C6_propagate_idempotent_witness :
    propagateO 0 (initState (List.replicate 81 '.')) =
      some (initState (List.replicate 81 '.')) :=
  C6_propagate_idempotent blankInput (List.replicate 81 '.') 1
    (initState (List.replicate 81 '.')) (by decide) (by decide) 0

theorem propagate_mono (fuel : Nat) (st st2 : SState)
    (h : propagateO fuel st = some st2) : MonoR st st2 :=
  propSquares_chain MonoR_refl MonoR_trans
    (fun st sq st2 _ hf => propStep_mono fuel st sq st2 hf)
    (List.range 81) (fun q hq => List.mem_range.mp hq) st st2 h

/-! ### Claim C9: propagation only shrinks domains -/

/-- C9: whenever `propagate` completes, every square's domain is a subset of
that square's domain before the call. -/
theorem C9_propagate_shrinks (fuel : Nat) (st st2 : SState)
    (h : propagateO fuel st = some st2) : ∀ s, dom st2 s ⊆ dom st s :=
  fun s => ((propagate_mono fuel st st2 h) s).subset

/-- Witness for C9 at the all-blank initial state, instantiated at square 0. -/
theorem C9_propagate_shrinks_witness :
    dom (initState (List.replicate 81 '.')) 0 ⊆ dom (initState (List.replicate 81 '.')) 0 :=
  C9_propagate_shrinks 1 (initState (List.replicate 81 '.'))
    (initState (List.replicate 81 '.')) (by decide) 0

/-! ### Access lemmas for the search's commit and undo -/

theorem values_commit (st : SState) (sq : Nat) (d : Char) :
    (commit st sq d).values = st.values.set sq [d] := rfl

theorem grid_commit (st : SState) (sq : Nat) (d : Char) :
    (commit st sq d).grid = st.grid.set sq [d] := rfl

theorem values_restore (st : SState) (sq : Nat) (saved : List Char) :
    (restore st sq saved).values = st.values.set sq saved := rfl

theorem grid_restore (st : SState) (sq : Nat) (saved : List Char) :
    (restore st sq saved).grid = st.grid.set sq [] := rfl

theorem dom_commit_self (st : SState) (sq : Nat) (d : Char) (h : sq < st.values.length) :
    dom (commit st sq d) sq = [d] := getD_set_self _ _ _ _ (by simpa using h)

theorem dom_commit_ne (st : SState) (sq t : Nat) (d : Char) (h : t ≠ sq) :
    dom (commit st sq d) t = dom st t := getD_set_ne _ _ _ _ _ h

theorem gridOf_commit_self (st : SState) (sq : Nat) (d : Char) (h : sq < st.grid.length) :
    gridOf (commit st sq d) sq = [d] := getD_set_self _ _ _ _ (by simpa using h)

theorem gridOf_commit_ne (st : SState) (sq t : Nat) (d : Char) (h : t ≠ sq) :
    gridOf (commit st sq d) t = gridOf st t := getD_set_ne _ _ _ _ _ h

theorem dom_restore_self (st : SState) (sq : Nat) (saved : List Char)
    (h : sq < st.values.length) :
    dom (restore st sq saved) sq = saved := getD_set_self _ _ _ _ (by simpa using h)

theorem dom_restore_ne (st : SState) (sq t : Nat) (saved : List Char) (h : t ≠ sq) :
    dom (restore st sq saved) t = dom st t := getD_set_ne _ _ _ _ _ h

theorem gridOf_restore_self (st : SState) (sq : Nat) (saved : List Char)
    (h : sq < st.grid.length) :
    gridOf (restore st sq saved) sq = [] := getD_set_self _ _ _ _ (by simpa using h)

theorem gridOf_restore_ne (st : SState) (sq t : Nat) (saved : List Char) (h : t ≠ sq) :
    gridOf (restore st sq saved) t = gridOf st t := getD_set_ne _ _ _ _ _ h

theorem WF_commit (st : SState) (sq : Nat) (d : Char) (h : WF st) : WF (commit st sq d) :=
  WF_setDom _ _ _ (WF_setGrid _ _ _ h)

theorem WF_restore (st : SState) (sq : Nat) (saved : List Char) (h : WF st) :
    WF (restore st sq saved) :=
  WF_setDom _ _ _ (WF_setGrid _ _ _ h)

theorem allSingleton_dom (st : SState) (hlen : st.values.length = 81)
    (h : allSingleton st = true) : ∀ s, s < 81 → (dom st s).length = 1 := by
  intro s hs
  have hsl : s < st.values.length := by omega
  have hmem : st.values.getD s [] ∈ st.values := by
    rw [List.getD_eq_getElem st.values [] hsl]
    exact List.getElem_mem hsl
  have hbeq := List.all_eq_true.mp h _ hmem
  show (st.values.getD s []).length = 1
  simp only [beq_iff_eq] at hbeq
  exact hbeq

/-! ### What a failed search leaves behind -/

theorem tryCands_failed (fuel : Nat) (sq : Nat) (saved : List Char)
    (IH : ∀ st st2, WF st → search fuel st = SResult.failed st2 →
      st2.values = st.values ∧ GridRestore st st2 ∧ WF st2)
    (hsq : sq < 81) (hsavedlen : 1 < saved.length) :
    ∀ (ds : List Char) (st st2 : SState), WF st →
      tryCands (search fuel) sq saved ds st = SResult.failed st2 →
      (st2.values = st.values ∨ st2.values = st.values.set sq saved) ∧
        GridRestore st st2 ∧ WF st2 := by
  intro ds
  induction ds with
  | nil =>
    intro st st2 hwf h
    obtain rfl : st = st2 := by simpa [tryCands] using h
    exact ⟨Or.inl rfl, fun s => Or.inl rfl, hwf⟩
  | cons d ds ih =>
    intro st st2 hwf h
    simp only [tryCands] at h
    by_cases hall : isAllowed st sq d = true
    · rw [if_pos hall] at h
      cases hrec : search fuel (commit st sq d) with
      | solved st3 => rw [hrec] at h; exact absurd h (by simp)
      | crash st3 => rw [hrec] at h; exact absurd h (by simp)
      | nofuel st3 => rw [hrec] at h; exact absurd h (by simp)
      | failed st3 =>
        rw [hrec] at h
        have hwfc : WF (commit st sq d) := WF_commit st sq d hwf
        obtain ⟨hv3, hg3, hwf3⟩ := IH (commit st sq d) st3 hwfc hrec
        have hvr : (restore st3 sq saved).values = st.values.set sq saved := by
          rw [values_restore, hv3, values_commit, List.set_set]
        have hwfr : WF (restore st3 sq saved) := WF_restore st3 sq saved hwf3
        obtain ⟨hv2, hg2, hwf2⟩ := ih (restore st3 sq saved) st2 hwfr h
        refine ⟨?_, ?_, hwf2⟩
        · rcases hv2 with hv2 | hv2
          · exact Or.inr (by rw [hv2, hvr])
          · exact Or.inr (by rw [hv2, hvr, List.set_set])
        · intro s
          by_cases hssq : s = sq
          · subst hssq
            have hdom2 : dom st2 s = saved := by
              rcases hv2 with hv2 | hv2
              · show st2.values.getD s [] = saved
                rw [hv2, hvr]
                exact getD_set_self _ _ _ _ (by rw [hwf.1]; exact hsq)
              · show st2.values.getD s [] = saved
                rw [hv2]
                exact getD_set_self _ _ _ _ (by rw [hwfr.1]; exact hsq)
            rcases hg2 s with hgeq | hgpair
            · have hgr0 : gridOf (restore st3 s saved) s = [] := by
                show (st3.grid.set s []).getD s [] = []
                exact getD_set_self _ _ _ _ (by rw [hwf3.2]; exact hsq)
              exact Or.inr ⟨by rw [hgeq, hgr0], by rw [hdom2]; exact hsavedlen⟩
            · exact Or.inr ⟨hgpair.1, by rw [hdom2]; exact hsavedlen⟩
          · rcases hg2 s with hgeq | hgpair
            · have hgr : gridOf (restore st3 sq saved) s = gridOf st3 s :=
                gridOf_restore_ne st3 sq s saved hssq
              rcases hg3 s with hgeq3 | hgpair3
              · have hgc : gridOf (commit st sq d) s = gridOf st s :=
                  gridOf_commit_ne st sq s d hssq
                exact Or.inl (by rw [hgeq, hgr, hgeq3, hgc])
              · refine Or.inr ⟨by rw [hgeq, hgr, hgpair3.1], ?_⟩
                have hd2 : dom st2 s = dom st3 s := by
                  show st2.values.getD s [] = st3.values.getD s []
                  rcases hv2 with hv2 | hv2
                  · rw [hv2, values_restore, getD_set_ne _ _ _ _ _ hssq]
                  · rw [hv2, values_restore, getD_set_ne _ _ _ _ _ hssq,
                      getD_set_ne _ _ _ _ _ hssq]
                rw [hd2]
                exact hgpair3.2
            · exact Or.inr hgpair
    · rw [if_neg hall] at h
      exact ih st st2 hwf h

theorem search_failed_state :
    ∀ (fuel : Nat) (st st2 : SState), WF st → search fuel st = SResult.failed st2 →
      st2.values = st.values ∧ GridRestore st st2 ∧ WF st2 := by
  intro fuel
  induction fuel with
  | zero => intro st st2 _ h; rw [search] at h; exact absurd h (by simp)
  | succ fuel ih =>
    intro st st2 hwf h
    rw [search] at h
    by_cases hs : allSingleton st = true
    · rw [if_pos hs] at h; exact absurd h (by simp)
    · rw [if_neg hs] at h
      cases hmrv : mrv st with
      | none => rw [hmrv] at h; exact absurd h (by simp)
      | some sq =>
        rw [hmrv] at h
        obtain ⟨hsq81, hlen, _, _⟩ := mrv_spec st sq hmrv
        obtain ⟨hv, hg, hwf2⟩ := tryCands_failed fuel sq (dom st sq) ih hsq81 hlen
          (dom st sq) st st2 hwf h
        refine ⟨?_, hg, hwf2⟩
        rcases hv with hv | hv
        · exact hv
        · rw [hv]
          show st.values.set sq (st.values.getD sq []) = st.values
          exact set_getD_self _ _ _

/-! ### A board with an empty domain can never be reported solved -/

theorem tryCands_not_solved (fuel : Nat) (sq : Nat) (saved : List Char) (e : Nat)
    (he81 : e < 81) (hesq : e ≠ sq)
    (IH : ∀ st, WF st → (∃ s, s < 81 ∧ dom st s = []) →
      ∀ st2, search fuel st ≠ SResult.solved st2) :
    ∀ (ds : List Char) (st : SState), WF st → dom st e = [] →
      ∀ st2, tryCands (search fuel) sq saved ds st ≠ SResult.solved st2 := by
  intro ds
  induction ds with
  | nil => intro st _ _ st2 h; simp [tryCands] at h
  | cons d ds ih =>
    intro st hwf hedom st2 h
    simp only [tryCands] at h
    by_cases hall : isAllowed st sq d = true
    · rw [if_pos hall] at h
      cases hrec : search fuel (commit st sq d) with
      | solved st3 =>
        exact IH (commit st sq d) (WF_commit st sq d hwf)
          ⟨e, he81, by rw [dom_commit_ne st sq e d hesq]; exact hedom⟩ st3 hrec
      | failed st3 =>
        rw [hrec] at h
        have hst3 := search_failed_state fuel (commit st sq d) st3 (WF_commit st sq d hwf) hrec
        have hedom3 : dom st3 e = [] := by
          show st3.values.getD e [] = []
          rw [hst3.1, values_commit, getD_set_ne _ _ _ _ _ hesq]
          exact hedom
        have hedomr : dom (restore st3 sq saved) e = [] := by
          rw [dom_restore_ne st3 sq e saved hesq]
          exact hedom3
        exact ih (restore st3 sq saved) (WF_restore st3 sq saved hst3.2.2) hedomr st2 h
      | crash st3 => rw [hrec] at h; simp at h
      | nofuel st3 => rw [hrec] at h; simp at h
    · rw [if_neg hall] at h
      exact ih st hwf hedom st2 h

theorem search_not_solved_of_empty :
    ∀ (fuel : Nat) (st : SState), WF st → (∃ s, s < 81 ∧ dom st s = []) →
      ∀ st2, search fuel st ≠ SResult.solved st2 := by
  intro fuel
  induction fuel with
  | zero => intro st _ _ st2 h; rw [search] at h; simp at h
  | succ fuel ih =>
    intro st hwf hemp st2 h
    obtain ⟨e, he81, hedom⟩ := hemp
    rw [search] at h
    by_cases hs : allSingleton st = true
    · have := allSingleton_dom st hwf.1 hs e he81
      rw [hedom] at this
      simp at this
    · rw [if_neg hs] at h
      cases hmrv : mrv st with
      | none => rw [hmrv] at h; simp at h
      | some sq =>
        rw [hmrv] at h
        obtain ⟨hsq81, hsqlen, _, _⟩ := mrv_spec st sq hmrv
        have hesq : e ≠ sq := by
          intro heq
          rw [← heq, hedom] at hsqlen
          simp at hsqlen
        exact tryCands_not_solved fuel sq (dom st sq) e he81 hesq ih
          (dom st sq) st hwf hedom st2 h

/-! ### Claim C5: state restoration on search failure -/

/-- C5 counterexample: on the concrete mid-search state `stC5` (squares 0 and
1 blank, all other squares committed), `search` fails, the domains are
restored, but the board state does not equal the state at entry — square 0's
grid entry has been cleared to `''` instead of being restored to its saved
`'.'`. -/
theorem C5_counterexample :
    search 3 stC5 = SResult.failed stC5x ∧ stC5x.values = stC5.values ∧ stC5x ≠ stC5 := by
  refine ⟨by decide, by decide, by decide⟩

/-- C5 as amended: after a failed candidate the chosen square's domain is
restored from the saved copy, but its grid assignment is cleared to `''`
rather than restored; consequently, when `search` reports failure,
`self.values` equals the state at entry, while each `self.grid` entry is
either unchanged or cleared to `''` (the latter only on squares whose domain
was restored to a branching domain). -/
theorem C5_search_restore (fuel : Nat) (st st2 : SState) (hwf : WF st)
    (h : search fuel st = SResult.failed st2) :
    st2.values = st.values ∧
      ∀ s, gridOf st2 s = gridOf st s ∨ (gridOf st2 s = [] ∧ 1 < (dom st2 s).length) :=
  ⟨(search_failed_state fuel st st2 hwf h).1, (search_failed_state fuel st st2 hwf h).2.1⟩

/-- Witness for the amended C5 at the concrete failing search. -/
theorem C5_search_restore_witness :
    stC5x.values = stC5.values ∧
      ∀ s, gridOf stC5x s = gridOf stC5 s ∨ (gridOf stC5x s = [] ∧ 1 < (dom stC5x s).length) :=
  C5_search_restore 3 stC5 stC5x ⟨by decide, by decide⟩ (by decide)

/-! ### Claim C2: no contradiction check before searching -/

/-- C2 counterexample: the parsed puzzle `cexC2input` (clues `1`, `1` in the
first two squares) propagates to a state whose square 1 has an empty domain,
yet `solve` passes that state straight to `search`, whose first action is to
select an MRV square and commit a tentative assignment — it proceeds into
the backtracking search with the invalid state instead of reporting no
solution. -/
theorem C2_counterexample :
    grid_values cexC2input = some cexC2input ∧
      (propagateO 100 (initState cexC2input)).map
        (fun st => (dom st 1, firstStepCommits st)) = some ([], true) := by
  constructor <;> decide

/-- C2 as amended: `solve` performs no contradiction check — it passes the
propagated values to `search` unconditionally; a board with an empty domain
can never satisfy the all-singleton success check (the empty cell is never
selected and never refilled), so `search` never reports Solved from such a
state: it proceeds into branching and ultimately fails or crashes. -/
theorem C2_search_never_solves_contradiction (fuel : Nat) (st : SState) (hwf : WF st)
    (hemp : ∃ s, s < 81 ∧ dom st s = []) (st2 : SState) :
    search fuel st ≠ SResult.solved st2 :=
  search_not_solved_of_empty fuel st hwf hemp st2

/-- Witness for the amended C2 at the concrete state `stC2w`. -/
theorem C2_search_never_solves_contradiction_witness :
    search 5 stC2w ≠ SResult.solved stC2w :=
  C2_search_never_solves_contradiction 5 stC2w ⟨by decide, by decide⟩
    ⟨3, by decide, by decide⟩ stC2w

/-! ### Propagation leaves no singleton's value in any peer's domain -/

theorem propStep_CR (fuel : Nat) (st : SState) (sq : Nat) (st2 : SState)
    (hsq : sq < 81) (h : propStep fuel st sq = some st2) : CR st st2 := by
  rw [propStep] at h
  by_cases hin : pyIn (gridOf st sq) digitsL = true
  · rw [if_pos hin] at h
    exact elimVals_chain CR_refl CR_trans sq
      (fun st c st2 hf => fun hwfa =>
        ⟨elim_WF fuel st sq [c] st2 hf hwfa, elim_clean fuel st sq [c] st2 hf hsq hwfa,
          elim_mono fuel st sq [c] st2 hf⟩) _ st st2 h
  · rw [if_neg hin] at h
    obtain rfl : st = st2 := by simpa using h
    exact CR_refl st

theorem init_no_singleton (b : List Char) : ∀ t c, dom (initState b) t ≠ [c] := by
  intro t c h
  rw [dom_initState] at h
  by_cases ht : t < 81
  · rw [if_pos ht] at h
    have := congrArg List.length h
    simp [digitsL] at this
  · rw [if_neg ht] at h
    simp at h

theorem propagate_clean (fuel : Nat) (b : List Char) (st : SState) (hb : b.length = 81)
    (h : propagateO fuel (initState b) = some st) : NoConflict st := by
  have hcr : CR (initState b) st := propSquares_chain CR_refl CR_trans
    (fun st sq st2 hsq hf => propStep_CR fuel st sq st2 hsq hf)
    (List.range 81) (fun q hq => List.mem_range.mp hq) _ st h
  obtain ⟨-, hclean, -⟩ := hcr (PB_initState b hb).1
  intro s c hdom p hp
  exact hclean s c hdom (init_no_singleton b s c) p hp

theorem Vinv_of_NoConflict {st : SState} (h : NoConflict st) : Vinv st := by
  intro s c hdom p hp heq
  exact h s c hdom p hp (by rw [heq]; simp)

theorem propagate_PBNE (fuel : Nat) (b : List Char) (st : SState)
    (h : propagateO fuel (initState b) = some st) : PBNE (initState b) st :=
  propSquares_chain PBNE_refl PBNE_trans
    (fun st sq st2 hsq hf => propStep_PBNE fuel st sq st2 hsq hf)
    (List.range 81) (fun q hq => List.mem_range.mp hq) _ st h

theorem dom_congr {a b : SState} (h : a.values = b.values) (t : Nat) : dom a t = dom b t := by
  show a.values.getD t [] = b.values.getD t []
  rw [h]

/-! ### A successful search yields a valid, monotone completion -/

theorem tryCands_solved (fuel : Nat) (sq : Nat)
    (IH : ∀ st st2, WF st → Vinv st → Jinv st → Dinv st →
      search fuel st = SResult.solved st2 →
      allSingleton st2 = true ∧ Vinv st2 ∧ MonoR st st2 ∧
        (∀ s, (dom st s).length ≤ 1 → dom st2 s = dom st s) ∧ WF st2) :
    ∀ (ds : List Char) (st0 st st2 : SState),
      st.values = st0.values → WF st → Jinv st →
      Vinv st0 → Dinv st0 → sq < 81 → 1 < (dom st0 sq).length →
      (∀ d ∈ ds, d ∈ dom st0 sq) →
      tryCands (search fuel) sq (dom st0 sq) ds st = SResult.solved st2 →
      allSingleton st2 = true ∧ Vinv st2 ∧ MonoR st0 st2 ∧
        (∀ s, (dom st0 s).length ≤ 1 → dom st2 s = dom st0 s) ∧ WF st2 := by
  intro ds
  induction ds with
  | nil => intro st0 st st2 _ _ _ _ _ _ _ _ h; simp [tryCands] at h
  | cons d ds ih =>
    intro st0 st st2 hveq hwf hj hv0 hd0 hsq81 hsqlen hds h
    have hdomeq : ∀ t, dom st t = dom st0 t := dom_congr hveq
    have hb1 : sq < st.values.length := by rw [hwf.1]; exact hsq81
    have hb2 : sq < st.grid.length := by rw [hwf.2]; exact hsq81
    simp only [tryCands] at h
    by_cases hall : isAllowed st sq d = true
    · rw [if_pos hall] at h
      have hdmem : d ∈ dom st0 sq := hds d (by simp)
      have hwfc : WF (commit st sq d) := WF_commit st sq d hwf
      have hjc : Jinv (commit st sq d) := by
        intro t hlen
        by_cases htq : t = sq
        · subst htq
          rw [dom_commit_self st t d hb1, gridOf_commit_self st t d hb2]
        · rw [dom_commit_ne st sq t d htq] at hlen
          rw [dom_commit_ne st sq t d htq, gridOf_commit_ne st sq t d htq]
          exact hj t hlen
      have hvc : Vinv (commit st sq d) := by
        intro s c hdom p hp heq
        by_cases hssq : s = sq
        · subst hssq
          rw [dom_commit_self st s d hb1] at hdom
          obtain rfl : d = c := by simpa using hdom
          have hpne : p ≠ s := fun hh => (not_self_mem_peersList s) (hh ▸ hp)
          rw [dom_commit_ne st s p d hpne] at heq
          have hgp : gridOf st p = [d] := by
            have hl1 : (dom st p).length = 1 := by rw [heq]; rfl
            rw [hj p hl1, heq]
          have hblock := List.all_eq_true.mp hall p hp
          rw [hgp] at hblock
          simp [hpne] at hblock
          rw [(pyIn_singleton d [d]).mpr (by simp)] at hblock
          exact Bool.noConfusion hblock
        · by_cases hpq : p = sq
          · rw [hpq] at heq hp
            rw [dom_commit_self st sq d hb1] at heq
            obtain rfl : d = c := by simpa using heq
            rw [dom_commit_ne st sq s d hssq] at hdom
            have hsp : s ∈ peersList sq := (peersList_symm s sq).mp hp
            have hgs : gridOf st s = [d] := by
              have hl1 : (dom st s).length = 1 := by rw [hdom]; rfl
              rw [hj s hl1, hdom]
            have hblock := List.all_eq_true.mp hall s hsp
            rw [hgs] at hblock
            simp [hssq] at hblock
            rw [(pyIn_singleton d [d]).mpr (by simp)] at hblock
            exact Bool.noConfusion hblock
          · rw [dom_commit_ne st sq s d hssq, hdomeq s] at hdom
            rw [dom_commit_ne st sq p d hpq, hdomeq p] at heq
            exact hv0 s c hdom p hp heq
      have hdc : Dinv (commit st sq d) := by
        intro t x hx
        by_cases htq : t = sq
        · subst htq
          rw [dom_commit_self st t d hb1] at hx
          obtain rfl : x = d := by simpa using hx
          exact hd0 t hdmem
        · rw [dom_commit_ne st sq t d htq, hdomeq t] at hx
          exact hd0 t hx
      cases hrec : search fuel (commit st sq d) with
      | solved st3 =>
        rw [hrec] at h
        obtain rfl : st3 = st2 := by simpa using h
        obtain ⟨ha2, hv2, hm2, hu2, hwf2⟩ := IH (commit st sq d) st3 hwfc hvc hjc hdc hrec
        refine ⟨ha2, hv2, ?_, ?_, hwf2⟩
        · intro t
          refine (hm2 t).trans ?_
          by_cases htq : t = sq
          · subst htq
            rw [dom_commit_self st t d hb1]
            exact List.singleton_sublist.mpr hdmem
          · rw [dom_commit_ne st sq t d htq, hdomeq t]
        · intro s hlen
          have hsne : s ≠ sq := by
            intro hh
            rw [hh] at hlen
            omega
          have hcs : dom (commit st sq d) s = dom st0 s := by
            rw [dom_commit_ne st sq s d hsne, hdomeq s]
          rw [← hcs]
          exact hu2 s (by rw [hcs]; exact hlen)
      | failed st3 =>
        rw [hrec] at h
        have hfl := search_failed_state fuel (commit st sq d) st3 hwfc hrec
        have hvr : (restore st3 sq (dom st0 sq)).values = st0.values := by
          rw [values_restore, hfl.1, values_commit, hveq, List.set_set]
          show st0.values.set sq (st0.values.getD sq []) = st0.values
          exact set_getD_self _ _ _
        have hwfr : WF (restore st3 sq (dom st0 sq)) := WF_restore _ _ _ hfl.2.2
        have hjr : Jinv (restore st3 sq (dom st0 sq)) := by
          intro t hlen
          by_cases htq : t = sq
          · subst htq
            rw [dom_restore_self st3 t _ (by rw [hfl.2.2.1]; exact hsq81)] at hlen
            omega
          · have hdr : dom (restore st3 sq (dom st0 sq)) t = dom st3 t :=
              dom_restore_ne st3 sq t _ htq
            have hd3 : dom st3 t = dom st t := by
              show st3.values.getD t [] = st.values.getD t []
              rw [hfl.1, values_commit, getD_set_ne _ _ _ _ _ htq]
            rcases hfl.2.1 t with hge | hgp
            · rw [hdr, hd3] at hlen ⊢
              rw [gridOf_restore_ne st3 sq t _ htq, hge, gridOf_commit_ne st sq t d htq]
              exact hj t hlen
            · rw [hdr] at hlen
              have := hgp.2
              omega
        exact ih st0 (restore st3 sq (dom st0 sq)) st2 hvr hwfr hjr hv0 hd0 hsq81 hsqlen
          (fun x hx => hds x (by simp [hx])) h
      | crash st3 => rw [hrec] at h; simp at h
      | nofuel st3 => rw [hrec] at h; simp at h
    · rw [if_neg hall] at h
      exact ih st0 st st2 hveq hwf hj hv0 hd0 hsq81 hsqlen (fun x hx => hds x (by simp [hx])) h

theorem search_solved_props :
    ∀ (fuel : Nat) (st st2 : SState), WF st → Vinv st → Jinv st → Dinv st →
      search fuel st = SResult.solved st2 →
      allSingleton st2 = true ∧ Vinv st2 ∧ MonoR st st2 ∧
        (∀ s, (dom st s).length ≤ 1 → dom st2 s = dom st s) ∧ WF st2 := by
  intro fuel
  induction fuel with
  | zero => intro st st2 _ _ _ _ h; rw [search] at h; simp at h
  | succ fuel ih =>
    intro st st2 hwf hv hj hd h
    rw [search] at h
    by_cases hs : allSingleton st = true
    · rw [if_pos hs] at h
      obtain rfl : st = st2 := by simpa using h
      exact ⟨hs, hv, MonoR_refl st, fun s _ => rfl, hwf⟩
    · rw [if_neg hs] at h
      cases hmrv : mrv st with
      | none => rw [hmrv] at h; simp at h
      | some sq =>
        rw [hmrv] at h
        obtain ⟨hsq81, hsqlen, -, -⟩ := mrv_spec st sq hmrv
        exact tryCands_solved fuel sq ih (dom st sq) st st st2 rfl hwf hj hv hd
          hsq81 hsqlen (fun d hd2 => hd2) h

/-! ### A solved all-singleton board satisfies the unit constraints -/

theorem eq_singleton_of_subset_mem {l : List Char} {c : Char}
    (hsub : l ⊆ [c]) (hmem : c ∈ l) (hnd : l.Nodup) : l = [c] := by
  cases l with
  | nil => simp at hmem
  | cons x xs =>
    have hx : x = c := by simpa using hsub (by simp)
    subst hx
    cases xs with
    | nil => rfl
    | cons y ys =>
      have hy : y = x := by simpa using hsub (show y ∈ x :: y :: ys by simp)
      rw [List.nodup_cons] at hnd
      exact absurd (by simp [hy]) hnd.1

theorem solved_valid (st2 : SState) (hwf : WF st2) (hall : allSingleton st2 = true)
    (hv : Vinv st2) (hd : Dinv st2) :
    ∀ u ∈ unitlist, ∀ dgt ∈ digitsL,
      u.countP (fun s => decide (dom st2 s = [dgt])) = 1 := by
  intro u hu dgt hdgt
  have hlen9 : u.length = 9 := unitlist_length u hu
  have hnd : u.Nodup := unitlist_nodup u hu
  have hsingle : ∀ s ∈ u, ∃ c, dom st2 s = [c] ∧ c ∈ digitsL := by
    intro s hs
    have hs81 : s < 81 := mem_unitlist_lt u hu s hs
    obtain ⟨c, hc⟩ := List.length_eq_one.mp (allSingleton_dom st2 hwf.1 hall s hs81)
    exact ⟨c, hc, hd s (by rw [hc]; simp)⟩
  have hgval : ∀ s, ∀ c, dom st2 s = [c] → (dom st2 s).headD ' ' = c := by
    intro s c hc
    rw [hc]
    rfl
  have hinj : ∀ x ∈ u, ∀ y ∈ u, (dom st2 x).headD ' ' = (dom st2 y).headD ' ' → x = y := by
    intro x hx y hy hxy
    by_contra hne
    obtain ⟨cx, hcx, -⟩ := hsingle x hx
    obtain ⟨cy, hcy, -⟩ := hsingle y hy
    have hyp : y ∈ peersList x := mem_peersList_of_unit hu hx hy (Ne.symm hne)
    apply hv x cx hcx y hyp
    rw [hcy]
    rw [hgval x cx hcx, hgval y cy hcy] at hxy
    rw [hxy]
  have hndM : (u.map (fun s => (dom st2 s).headD ' ')).Nodup := List.Nodup.map_on hinj hnd
  have hsubM : u.map (fun s => (dom st2 s).headD ' ') ⊆ digitsL := by
    intro x hx
    obtain ⟨s, hs, rfl⟩ := List.mem_map.mp hx
    obtain ⟨c, hc, hcd⟩ := hsingle s hs
    rw [hgval s c hc]
    exact hcd
  have hdignd : digitsL.Nodup := by decide
  have hperm : (u.map (fun s => (dom st2 s).headD ' ')).Perm digitsL :=
    (hndM.subperm hsubM).perm_of_length_le (by simp [hlen9, digitsL])
  have hcount : (u.map (fun s => (dom st2 s).headD ' ')).count dgt = 1 := by
    rw [hperm.count_eq dgt]
    exact (List.nodup_iff_count_eq_one.mp hdignd) dgt hdgt
  rw [← hcount, List.count_eq_countP, List.countP_map]
  apply List.countP_congr
  intro s hs
  obtain ⟨c, hc, -⟩ := hsingle s hs
  constructor
  · intro hp
    have heq : dom st2 s = [dgt] := by simpa using hp
    show ((dom st2 s).headD ' ' == dgt) = true
    rw [hgval s dgt heq]
    simp
  · intro hp
    have heq : (dom st2 s).headD ' ' = dgt := by simpa using hp
    rw [hgval s c hc] at heq
    subst heq
    simp [hc]

/-! ### Clue preservation under propagation (when the clue survives) -/

theorem propagate_clue (fuel : Nat) (b : List Char) (st0 : SState) (hb : b.length = 81)
    (h : propagateO fuel (initState b) = some st0) :
    ∀ s, s < 81 → ∀ c, b.getD s ' ' = c → c ∈ digitsL → c ∈ dom st0 s →
      dom st0 s = [c] := by
  intro s hs c hbc hcd hcmem
  obtain ⟨hpb0, hnoop⟩ := propagate_noop fuel b st0 hb h
  have hmono : MonoR (initState b) st0 := propagate_mono fuel (initState b) st0 h
  have hnd : (dom st0 s).Nodup := by
    have hsb := hmono s
    rw [dom_initState, if_pos hs] at hsb
    exact List.Nodup.sublist hsb (by decide)
  rcases (propagate_PBNE fuel b st0 h (PB_initState b hb)).2.2 s with hge | hright
  · have hgi : gridOf st0 s = [c] := by
      rw [hge, gridOf_initState b s (by omega), hbc]
    exact eq_singleton_of_subset_mem (hnoop s hs c hgi hcd) hcmem hnd
  · obtain ⟨hno, x, hgx, hxd⟩ := hright
    have hsub : dom st0 s ⊆ [x] := hno x hgx hxd
    have hcx : c = x := by simpa using hsub hcmem
    subst hcx
    exact eq_singleton_of_subset_mem hsub hcmem hnd

/-! ### Claim C1: validity of a reported solution -/

/-- C1 as amended: whenever `solve` reports Solved (`search` returns a truthy
result on the propagated parsed board), the resulting board assigns each
square a single digit such that every unit — every row, column, and box —
contains each digit 1–9 exactly once; and every parsed clue digit *that is
still in its own square's domain after propagation* is unchanged in the
solution.  (The unconditional clue clause of the original claim is false:
with conflicting clues, propagation's live re-read of `self.grid` lets a
fired singleton overwrite a clue before its own outer-loop iteration — see
the counterexample.) -/
theorem C1_solve_valid (input b : List Char) (fuelP : Nat) (st0 : SState)
    (fuelS : Nat) (stF : SState)
    (h1 : grid_values input = some b)
    (h2 : propagateO fuelP (initState b) = some st0)
    (h3 : search fuelS st0 = SResult.solved stF) :
    (∀ s, s < 81 → ∃ c, dom stF s = [c]) ∧
      (∀ u ∈ unitlist, ∀ dgt ∈ digitsL,
        u.countP (fun s => decide (dom stF s = [dgt])) = 1) ∧
      (∀ s, s < 81 → ∀ c, b.getD s ' ' = c → c ∈ digitsL → c ∈ dom st0 s →
        dom stF s = [c]) := by
  have hb : b.length = 81 := (grid_values_some_eq h1).2
  obtain ⟨hpb0, hnoop⟩ := propagate_noop fuelP b st0 hb h2
  have hv0 : Vinv st0 := Vinv_of_NoConflict (propagate_clean fuelP b st0 hb h2)
  obtain ⟨hallF, hvF, hmF, huF, hwfF⟩ :=
    search_solved_props fuelS st0 stF hpb0.1 hv0 hpb0.2.2.2 hpb0.2.2.1 h3
  have hdF : Dinv stF := fun s x hx => hpb0.2.2.1 s ((hmF s).subset hx)
  refine ⟨?_, solved_valid stF hwfF hallF hvF hdF, ?_⟩
  · intro s hs
    exact List.length_eq_one.mp (allSingleton_dom stF hwfF.1 hallF s hs)
  · intro s hs c hbc hcd hcmem
    have h0 : dom st0 s = [c] := propagate_clue fuelP b st0 hb h2 s hs c hbc hcd hcmem
    rw [huF s (by rw [h0]; rfl), h0]

set_option maxRecDepth 100000 in
set_option maxHeartbeats 8000000 in
/-- Witness for the amended C1: the complete consistent grid propagates to the
all-singleton solved state and `search` reports Solved immediately; the
conclusion holds there. -/
theorem C1_solve_valid_witness :
    (∀ s, s < 81 → ∃ c, dom expectedSt s = [c]) ∧
      (∀ u ∈ unitlist, ∀ dgt ∈ digitsL,
        u.countP (fun s => decide (dom expectedSt s = [dgt])) = 1) ∧
      (∀ s, s < 81 → ∀ c, solGrid.getD s ' ' = c → c ∈ digitsL → c ∈ dom expectedSt s →
        dom expectedSt s = [c]) := by
  refine C1_solve_valid solGrid solGrid 1000 expectedSt 1 expectedSt (by decide) ?_ (by decide)
  decide

set_option maxRecDepth 100000 in
set_option maxHeartbeats 8000000 in
/-- C1 counterexample: on the input `cexC1input` — the same complete grid
except that square 80 (`I9`) carries the conflicting clue `'1'` — `solve`
reports Solved, yet the solution holds `'8'` at square 80: an
originally-committed clue digit was not preserved. -/
theorem C1_counterexample :
    grid_values cexC1input = some cexC1input ∧
      propagateO 1000 (initState cexC1input) = some expectedSt ∧
      search 1 expectedSt = SResult.solved expectedSt ∧
      cexC1input.getD 80 '.' = '1' ∧ ('1' : Char) ∈ digitsL ∧
      dom expectedSt 80 = ['8'] := by
  refine ⟨by decide, ?_, by decide, by decide, by decide, by decide⟩
  decide

end SudokuVerify
